import Mathlib

/-!
Shallow embedding of the retrieval core of the guezi-rag-chatbot repository
(`src/semantic_chunker.py`, `src/embeddings.py`, `src/rag_engine_v2.py`),
together with theorems settling the specification claims about it.

Python strings are modelled as Lean `String` (length = number of code
points, as in Python); Python dicts with fixed key sets are modelled as
structures; absent optional keys are modelled with `Option`; the external
embedding collaborator is modelled as an oracle function parameter.
Scanning functions that consume a variable-length prefix of their input use
an explicit fuel argument (always called with fuel larger than the input
length) so that every definition is structurally recursive and reduces
inside the kernel.
-/

namespace Guezi

/-- Python `\s` whitespace class restricted to the ASCII range, which is the
only whitespace occurring in the modelled corpus and queries. -/
def pyWs (c : Char) : Bool :=
  c = ' ' ∨ c = '\t' ∨ c = '\n' ∨ c = '\r' ∨ c = '\x0b' ∨ c = '\x0c'

/-- Python `\w` word-character class (`[A-Za-z0-9_]` plus the accented
letters appearing in the French rule words of the reference resolver). -/
def isWordChar (c : Char) : Bool :=
  c.isAlphanum ∨ c = '_' ∨ c ∈ ['è', 'é', 'ê', 'î', 'ô', 'û', 'à', 'â', 'ç', 'ë', 'ï', 'ù']

/-- Python `str.lower`, character by character (ASCII case mapping; all
queries appearing in the claims are ASCII). -/
def lowerStr (s : String) : String :=
  ⟨s.data.map Char.toLower⟩

/-- `str[:n]` on a Python string. -/
def strTake (n : Nat) (s : String) : String :=
  ⟨s.data.take n⟩

/-- One pass of `re.sub(r'\s+', ' ', s)`: every maximal whitespace run is
replaced by a single space.  The boolean argument records whether the
previous character was whitespace. -/
def collapseAux : List Char → Bool → List Char
  | [], _ => []
  | c :: cs, prevWs =>
      if pyWs c then
        if prevWs then collapseAux cs true else ' ' :: collapseAux cs true
      else
        c :: collapseAux cs false

/-- `re.sub(r'\s+', ' ', s)` as used in `chunk_document`. -/
def collapseWs (s : String) : String :=
  ⟨collapseAux s.data false⟩

/-- Python `str.strip()`. -/
def pyStrip (s : String) : String :=
  ⟨(((s.data.dropWhile pyWs).reverse.dropWhile pyWs).reverse)⟩

/-- Scanner for `re.sub(r'<[^>]+>', ' ', s)`: starting at a `<`, a run of
one or more non-`>` characters followed by `>` is replaced by one space;
everywhere else characters are copied.  Fuel bounds the recursion; it is
always called with fuel exceeding the input length. -/
def stripHtmlAux : Nat → List Char → List Char
  | 0, cs => cs
  | _ + 1, [] => []
  | f + 1, c :: cs =>
      if c = '<' then
        let inner := cs.takeWhile (fun x => ¬ x = '>')
        let rest := cs.dropWhile (fun x => ¬ x = '>')
        match inner, rest with
        | _ :: _, '>' :: rest' => ' ' :: stripHtmlAux f rest'
        | _, _ => c :: stripHtmlAux f cs
      else
        c :: stripHtmlAux f cs

/-- `re.sub(r'<[^>]+>', ' ', s)` as used in `chunk_document`. -/
def stripHtml (s : String) : String :=
  ⟨stripHtmlAux (s.data.length + 1) s.data⟩

/-- Decimal digit list of a natural number, most significant first, with
fuel (called with fuel `n + 1`, which always suffices). -/
def natReprAux : Nat → Nat → List Char
  | 0, _ => []
  | f + 1, n =>
      if n < 10 then [Nat.digitChar n]
      else natReprAux f (n / 10) ++ [Nat.digitChar (n % 10)]

/-- Decimal representation of a natural number, as produced by Python
`str(n)` inside an f-string. -/
def natRepr (n : Nat) : String :=
  ⟨natReprAux (n + 1) n⟩

/-- Value of a big-endian decimal digit-character list. -/
def digitsVal (l : List Char) : Nat :=
  l.foldl (fun a c => 10 * a + (c.toNat - 48)) 0

/-! ## Semantic chunker (`src/semantic_chunker.py`) -/

/-- Configuration of `SemanticChunker.__init__` (`target_chunk_size` is
stored by the source but never used by the chunking code). -/
structure SemanticChunker where
  target_chunk_size : Nat
  min_chunk_size : Nat
  max_chunk_size : Nat
  overlap_size : Nat

/-- A raw corpus document: dict with keys `title`, `ref`, `hebrew`,
`english`, `combined` (missing keys default to the empty string via
`dict.get`). -/
structure Document where
  title : String
  ref : String
  hebrew : String
  english : String
  combined : String
deriving DecidableEq

/-- A chunk dict as produced by `chunk_document`.  `parent_ref` is `none`
for the single-chunk branch, which does not set that key. -/
structure Chunk where
  title : String
  ref : String
  chunk_id : String
  hebrew : String
  english : String
  combined : String
  chunk_index : Nat
  total_chunks : Nat
  parent_ref : Option String
deriving DecidableEq

/-- `' '.join(l)`. -/
def joinSp : List String → String
  | [] => ""
  | [s] => s
  | s :: rest => s ++ " " ++ joinSp rest

/-- `'\n\n'.join(l)`. -/
def joinNN : List String → String
  | [] => ""
  | [s] => s
  | s :: rest => s ++ "\n\n" ++ joinNN rest

/-- Index of the last `'\n'` in a character list, if any. -/
def lastNewline (l : List Char) : Option Nat :=
  (l.foldl (fun (p : Nat × Option Nat) c =>
    (p.1 + 1, if c = '\n' then some p.1 else p.2)) (0, none)).2

/-- Largest `j` with `l[j] = '\r'` and `l[j+1] = '\n'`, if any. -/
def lastCrNl : List Char → Option Nat
  | [] => none
  | [_] => none
  | c :: d :: rest =>
      match lastCrNl (d :: rest) with
      | some j => some (j + 1)
      | none => if c = '\r' ∧ d = '\n' then some 0 else none

/-- Scanner for `re.split(r'\n\s*\n|\r\n\s*\r\n', text)`: `cur` is the
(reversed) segment being accumulated, `acc` the (reversed) finished
segments.  A separator is a `'\n'`, a whitespace run, and a final `'\n'`
(greedy, so the last newline inside the run), or the `\r\n` variant. -/
def splitParaAux : Nat → List Char → List Char → List (List Char) → List (List Char)
  | 0, cs, cur, acc => ((cs.reverse ++ cur).reverse :: acc).reverse
  | _ + 1, [], cur, acc => (cur.reverse :: acc).reverse
  | f + 1, c :: cs, cur, acc =>
      if c = '\n' then
        let run := cs.takeWhile pyWs
        match lastNewline run with
        | some j => splitParaAux f (cs.drop (j + 1)) [] (cur.reverse :: acc)
        | none => splitParaAux f cs (c :: cur) acc
      else if c = '\r' then
        match cs with
        | '\n' :: cs' =>
            let run := cs'.takeWhile pyWs
            match lastCrNl (run ++ cs'.drop run.length |>.take (run.length + 2) ) with
            | some j =>
                if j + 1 ≤ run.length then
                  splitParaAux f (cs'.drop (j + 2)) [] (cur.reverse :: acc)
                else splitParaAux f cs ('\n' :: c :: cur) acc
            | none => splitParaAux f cs ('\n' :: c :: cur) acc
        | _ => splitParaAux f cs (c :: cur) acc
      else
        splitParaAux f cs (c :: cur) acc

/-- `_split_into_paragraphs`: regex split, then strip each part and drop
the empty ones. -/
def splitParagraphs (s : String) : List String :=
  ((splitParaAux (s.data.length + 1) s.data [] []).map
    (fun l => pyStrip ⟨l⟩)).filter (fun p => ¬ p = "")

/-- Sentence-final marks of `_split_into_sentences`
(`(?<=[.!?:。])\s+` look-behind class). -/
def sentenceMark (c : Char) : Bool :=
  c = '.' ∨ c = '!' ∨ c = '?' ∨ c = ':' ∨ c = '。'

/-- Scanner for `re.split(r'(?<=[.!?:。])\s+|(?<=\n\n)', text)`.  `prev`
holds up to two previously consumed characters (most recent first). -/
def splitSentAux : Nat → List Char → List Char → List Char → List (List Char) → List (List Char)
  | 0, cs, _, cur, acc => ((cs.reverse ++ cur).reverse :: acc).reverse
  | _ + 1, [], _, cur, acc => (cur.reverse :: acc).reverse
  | f + 1, c :: cs, prev, cur, acc =>
      if pyWs c ∧ (prev.head?.elim false sentenceMark) then
        let run := cs.takeWhile pyWs
        let rest := cs.dropWhile pyWs
        splitSentAux f rest [(run.reverse ++ [c]).headD c] [] (cur.reverse :: acc)
      else if prev.take 2 = ['\n', '\n'] then
        splitSentAux f cs (c :: prev.take 1) [c] (cur.reverse :: acc)
      else
        splitSentAux f cs (c :: prev.take 1) (c :: cur) acc

/-- `_split_into_sentences`: regex split, then strip each part and drop the
empty ones. -/
def splitSentences (s : String) : List String :=
  ((splitSentAux (s.data.length + 1) s.data [] [] []).map
    (fun l => pyStrip ⟨l⟩)).filter (fun p => ¬ p = "")

/-- The `combined` text assembled by `chunk_document` before cleaning:
a `[title - ref]` tag, then the english and hebrew fields when non-empty,
with the document's own `combined` field as fallback when both are empty,
joined by blank lines. -/
def combinedRaw (doc : Document) : String :=
  let parts := ["[" ++ doc.title ++ " - " ++ doc.ref ++ "]"]
  let parts := parts ++ (if doc.english = "" then [] else [doc.english])
  let parts := parts ++ (if doc.hebrew = "" then [] else [doc.hebrew])
  let parts :=
    if parts.length = 1 ∧ ¬ doc.combined = "" then parts ++ [doc.combined] else parts
  joinNN parts

/-- The cleaned `combined` text of `chunk_document`: HTML tags replaced by
spaces, whitespace collapsed, ends stripped. -/
def normalizeDoc (doc : Document) : String :=
  pyStrip (collapseWs (stripHtml (combinedRaw doc)))

/-- The segment list fed to `_create_chunks_with_overlap`: paragraphs,
with oversized paragraphs replaced by their sentences. -/
def segmentsOf (cfg : SemanticChunker) (doc : Document) : List String :=
  (splitParagraphs (normalizeDoc doc)).flatMap
    (fun p => if cfg.max_chunk_size < p.length then splitSentences p else [p])

/-- Loop state of `_create_chunks_with_overlap`: finished chunks, current
segment list, and the `current_length` counter. -/
structure CCState where
  chunks : List String
  cur : List String
  clen : Nat

/-- Python `l[-n:]` for a list. -/
def lastN (n : Nat) (l : List String) : List String :=
  l.drop (l.length - n)

/-- The close phase of one loop iteration of
`_create_chunks_with_overlap`: when the incoming segment would overflow
`max_chunk_size` and a chunk is pending, emit it and seed the next chunk
with the trailing one or two segments (bounded by twice `overlap_size` for
the two-segment case), or with nothing after a single-segment chunk. -/
def ccClose (cfg : SemanticChunker) (ov : Bool) (st : CCState) (seg : String) : CCState :=
  if cfg.max_chunk_size < st.clen + seg.length ∧ ¬ st.cur = [] then
    let chunks' := st.chunks ++ [joinSp st.cur]
    if ov ∧ 1 < st.cur.length then
      let keep := lastN 2 st.cur
      let ovText := joinSp keep
      if ovText.length ≤ cfg.overlap_size * 2 then
        CCState.mk chunks' keep ovText.length
      else
        let keep1 := lastN 1 st.cur
        CCState.mk chunks' keep1 (joinSp keep1).length
    else
      CCState.mk chunks' [] 0
  else st

/-- One iteration of the `for segment in segments` loop of
`_create_chunks_with_overlap`: possibly close the current chunk, then
append the segment unconditionally (the appended segment's size is not
re-checked against the overlap seed). -/
def ccStep (cfg : SemanticChunker) (ov : Bool) (st : CCState) (seg : String) : CCState :=
  let st1 := ccClose cfg ov st seg
  CCState.mk st1.chunks (st1.cur ++ [seg]) (st1.clen + seg.length + 1)

/-- Final flush of `_create_chunks_with_overlap`: emit the pending chunk
when it reaches `min_chunk_size`, otherwise merge it into the previous
chunk (or drop it when there is none). -/
def ccFinish (cfg : SemanticChunker) (st : CCState) : List String :=
  match st.cur with
  | [] => st.chunks
  | _ =>
      let t := joinSp st.cur
      if cfg.min_chunk_size ≤ t.length then st.chunks ++ [t]
      else
        match st.chunks with
        | [] => []
        | c :: cs =>
            (c :: cs).dropLast ++ [(c :: cs).getLast (List.cons_ne_nil c cs) ++ " " ++ t]

/-- `_create_chunks_with_overlap(segments, overlap)`. -/
def createChunksWithOverlap (cfg : SemanticChunker) (segments : List String)
    (ov : Bool) : List String :=
  if segments = [] then []
  else ccFinish cfg (segments.foldl (ccStep cfg ov) (CCState.mk [] [] 0))

/-- The `for i, chunk_text in enumerate(text_chunks)` loop of
`chunk_document`, starting at index `i`. -/
def mkChunks (title ref : String) (total : Nat) : Nat → List String → List Chunk
  | _, [] => []
  | i, t :: ts =>
      Chunk.mk title ref (ref ++ "_chunk_" ++ natRepr i) "" "" t i total (some ref)
        :: mkChunks title ref total (i + 1) ts

/-- `SemanticChunker.chunk_document`. -/
def chunk_document (cfg : SemanticChunker) (doc : Document) : List Chunk :=
  let combined := normalizeDoc doc
  if combined.length ≤ cfg.max_chunk_size then
    [Chunk.mk doc.title doc.ref (doc.ref ++ "_0") (strTake 4000 doc.hebrew)
      (strTake 4000 doc.english) combined 0 1 none]
  else
    let text_chunks := createChunksWithOverlap cfg (segmentsOf cfg doc) true
    mkChunks doc.title doc.ref text_chunks.length 0 text_chunks

/-! ## Embeddings manager (`src/embeddings.py`) -/

/-- A metadata record stored alongside each vector by `add_documents`. -/
structure Metadata where
  title : String
  ref : String
  hebrew : String
  english : String
deriving DecidableEq

/-- State of an `EmbeddingsManager`: the FAISS index is modelled as the
list of its stored vectors (so `index.ntotal` is the list length), with the
parallel `documents` and `metadatas` arrays and the configured dimension. -/
structure EmbState where
  index : List (List ℚ)
  documents : List String
  metadatas : List Metadata
  embedding_dim : Nat

/-- `_create_new_index`: fresh empty index of the configured dimension. -/
def createNewIndex (dim : Nat) : EmbState :=
  EmbState.mk [] [] [] dim

/-- `_load_or_create_index`.  The two persisted files are modelled as
optional parsed contents (`none` covers both a missing file and a file
whose read raises, which the source catches before falling back).  When
both files are readable their contents are taken over verbatim — the
source performs no consistency check between the index vector count and
the metadata array lengths. -/
def loadOrCreateIndex (dim : Nat)
    (indexFile : Option (List (List ℚ)))
    (metadataFile : Option (List String × List Metadata)) : EmbState :=
  match indexFile, metadataFile with
  | some idx, some dm => EmbState.mk idx dm.1 dm.2 dim
  | _, _ => createNewIndex dim

/-- `clear_collection`: reset to an empty index of the same dimension. -/
def clear_collection (st : EmbState) : EmbState :=
  createNewIndex st.embedding_dim

/-- An embedding-collaborator oracle: given a batch index, an attempt
number (0 = first try, 1 = the retry after backoff) and the batch of
texts, it either returns the embedding vectors or fails (`none`, covering
the exception path of the source). -/
def EmbOracle : Type :=
  Nat → Nat → List String → Option (List (List ℚ))

/-- The body of one batch iteration of `get_embeddings_batch`: try the
embedding call, retry once on failure (the `time.sleep` backoffs have no
observable effect on the data), and record one empty embedding per batch
text when the retry also fails. -/
def batchEmb (oracle : EmbOracle) (i : Nat) (batch : List String) : List (List ℚ) :=
  match oracle i 0 batch with
  | some es => es
  | none =>
      match oracle i 1 batch with
      | some es => es
      | none => batch.map (fun _ => [])

/-- The `for i in range(0, len(texts), batch_size)` loop of
`get_embeddings_batch`, with structural fuel and a running batch counter
(the source indexes batches by text offset; the model numbers them
consecutively). -/
def gebAux (oracle : EmbOracle) (bs : Nat) : Nat → Nat → List String → List (List ℚ)
  | 0, _, _ => []
  | _ + 1, _, [] => []
  | f + 1, i, l => batchEmb oracle i (l.take bs) ++ gebAux oracle bs f (i + 1) (l.drop bs)

/-- `get_embeddings_batch`: embeddings for all texts, produced batch by
batch with one retry per failed batch. -/
def get_embeddings_batch (oracle : EmbOracle) (texts : List String)
    (batch_size : Nat) : List (List ℚ) :=
  gebAux oracle batch_size (texts.length + 1) 0 texts

/-- The texts prepared by `add_documents`: documents whose text field
(`combined` by default) is empty are skipped, the rest are truncated to
8000 characters. -/
def addTexts (documents : List Document) : List String :=
  (documents.filter (fun d => ¬ d.combined = "")).map (fun d => strTake 8000 d.combined)

/-- The metadata records prepared by `add_documents`, parallel to
`addTexts`. -/
def addMetas (documents : List Document) : List Metadata :=
  (documents.filter (fun d => ¬ d.combined = "")).map (fun d =>
    Metadata.mk d.title d.ref (strTake 1000 d.hebrew) (strTake 1000 d.english))

/-- `add_documents` with the default `text_field="combined"`.  Embeddings
are requested in batches of 20; `(text, embedding, metadata)` triples with
an empty embedding are filtered out; if the first surviving embedding has
a different dimension than the index, the index is recreated empty with
the new dimension; the surviving triples are then appended to the index
and the parallel arrays (the subsequent `_save_index` only mirrors this
state to disk). -/
def add_documents (st : EmbState) (oracle : EmbOracle)
    (documents : List Document) : EmbState :=
  if documents = [] then st
  else
    let texts := addTexts documents
    let metas := addMetas documents
    let embs := get_embeddings_batch oracle texts 20
    let valid := (texts.zip (embs.zip metas)).filter (fun p => ¬ p.2.1 = [])
    match valid with
    | [] => st
    | v0 :: _ =>
        let st1 := if ¬ v0.2.1.length = st.embedding_dim
          then createNewIndex v0.2.1.length else st
        EmbState.mk
          (st1.index ++ valid.map (fun p => p.2.1))
          (st1.documents ++ valid.map (fun p => p.1))
          (st1.metadatas ++ valid.map (fun p => p.2.2))
          st1.embedding_dim

/-- The parallel-arrays invariant of the manager: both sidecar arrays have
exactly as many entries as the index has vectors. -/
def embInv (st : EmbState) : Prop :=
  st.documents.length = st.index.length ∧ st.metadatas.length = st.index.length

/-! ## RAG engine (`src/rag_engine_v2.py`) -/

/-- `self.number_words`, in insertion order. -/
def number_words : List (String × String) :=
  [("first", "1"), ("second", "2"), ("third", "3"), ("fourth", "4"), ("fifth", "5"),
   ("sixth", "6"), ("seventh", "7"), ("eighth", "8"), ("ninth", "9"), ("tenth", "10"),
   ("premier", "1"), ("deuxième", "2"), ("troisième", "3"),
   ("one", "1"), ("two", "2"), ("three", "3"), ("four", "4"), ("five", "5")]

/-- Keyword alternation of the first number-word rewrite rule
(`\b{word}\s+(teaching|lesson|torah|enseignement|tale|story|prayer)\b`). -/
def kwGeneral : List (List Char) :=
  ["teaching".data, "lesson".data, "torah".data, "enseignement".data,
   "tale".data, "story".data, "prayer".data]

/-- Keyword alternation of the second number-word rewrite rule
(`\b{word}\s+(likutei|likute|sippurei|sichot|chayei)\b`). -/
def kwBooks : List (List Char) :=
  ["likutei".data, "likute".data, "sippurei".data, "sichot".data, "chayei".data]

/-- Keyword alternation of the third number-word rule
(`\b{word}\s+(teaching|lesson|enseignement)\b`). -/
def kwBare : List (List Char) :=
  ["teaching".data, "lesson".data, "enseignement".data]

/-- Try the regex `{word}\s+(k)\b` (for `k` drawn in order from `ks`) as a
prefix of `cs`; on success return the matched keyword and the remainder
after it.  The alternation is tried left to right, each alternative
requiring a word boundary after it, exactly as the backtracking engine
does. -/
def tryKws : List (List Char) → List Char → Option (List Char × List Char)
  | [], _ => none
  | k :: ks, cs =>
      if k.isPrefixOf cs ∧ ((cs.drop k.length).head?.elim true (fun c => ¬ isWordChar c))
      then some (k, cs.drop k.length)
      else tryKws ks cs

/-- Try `{word}\s+(ks)\b` as a prefix of `cs` (the leading `\b` is checked
by the caller via the previous character). -/
def tryWordKw (w : List Char) (ks : List (List Char)) (cs : List Char) :
    Option (List Char × List Char) :=
  if w.isPrefixOf cs then
    let r1 := cs.drop w.length
    if (r1.takeWhile pyWs) = [] then none
    else tryKws ks (r1.dropWhile pyWs)
  else none

/-- `re.sub(rf'\b{word}\s+(ks)\b', rf'\1 {digit}', s)`: left-to-right scan
replacing each non-overlapping match by the captured keyword, a space and
the digit string.  `prevW` records whether the previous character of the
original string was a word character (for the leading `\b`). -/
def subWordKw (w : List Char) (ks : List (List Char)) (d : List Char) :
    Nat → Bool → List Char → List Char
  | 0, _, cs => cs
  | _ + 1, _, [] => []
  | f + 1, prevW, c :: cs =>
      match (if prevW then none else tryWordKw w ks (c :: cs)) with
      | some kr => kr.1 ++ ' ' :: d ++ subWordKw w ks d f true kr.2
      | none => c :: subWordKw w ks d f (isWordChar c) cs

/-- `re.search(rf'\b{word}\s+(ks)\b', s) is not None`. -/
def hasWordKw (w : List Char) (ks : List (List Char)) :
    Nat → Bool → List Char → Bool
  | 0, _, _ => false
  | _ + 1, _, [] => false
  | f + 1, prevW, c :: cs =>
      match (if prevW then none else tryWordKw w ks (c :: cs)) with
      | some _ => true
      | none => hasWordKw w ks f (isWordChar c) cs

/-- Python `str.replace(pat, rep)`, all non-overlapping occurrences left to
right (`pat` is non-empty at every call site). -/
def replaceAll (pat rep : List Char) : Nat → List Char → List Char
  | 0, cs => cs
  | _ + 1, [] => []
  | f + 1, c :: cs =>
      if pat.isPrefixOf (c :: cs) then rep ++ replaceAll pat rep f ((c :: cs).drop pat.length)
      else c :: replaceAll pat rep f cs

/-- The number-word pre-pass of `_extract_reference`: for each `(word,
digit)` pair in order, rewrite `word keyword` to `keyword digit`, rewrite
`word bookname` to `bookname digit`, and — when the original lowered query
contains `word` before a bare teaching keyword — replace every occurrence
of `word ` by `teaching digit `. -/
def preNumberPass (orig : List Char) : List Char :=
  number_words.foldl (fun q wd =>
    let w := wd.1.data
    let d := wd.2.data
    let q1 := subWordKw w kwGeneral d (q.length + 1) false q
    let q2 := subWordKw w kwBooks d (q1.length + 1) false q1
    if hasWordKw w kwBare (orig.length + 1) false orig then
      replaceAll (w ++ [' ']) ("teaching ".data ++ d ++ [' ']) (q2.length + 1) q2
    else q2) orig

/-- Tokens of the pattern shapes occurring in `self.reference_patterns`:
literal strings, one optional character from a set (`e?`, `[iy]?`),
`\s*`, an optional literal followed by `\s*` (`(?:part\s*)?`), and a
literal alternation (`(?:ii|2)`). -/
inductive RTok where
  | lit : List Char → RTok
  | optC : List Char → RTok
  | ws0 : RTok
  | optLitWs : List Char → RTok
  | alts : List (List Char) → RTok

/-- Remainders of `cs` after consuming zero or more whitespace characters,
longest first (the greedy preference order of `\s*`). -/
def wsRems (cs : List Char) : List (List Char) :=
  ((List.range ((cs.takeWhile pyWs).length + 1)).reverse).map (fun k => cs.drop k)

/-- All remainders after matching one token as a prefix of `cs`, in the
backtracking engine's preference order (greedy first). -/
def matchTok : RTok → List Char → List (List Char)
  | RTok.lit l, cs => if l.isPrefixOf cs then [cs.drop l.length] else []
  | RTok.optC set, cs =>
      (match cs with
       | c :: rest => if set.contains c then [rest] else []
       | [] => []) ++ [cs]
  | RTok.ws0, cs => wsRems cs
  | RTok.optLitWs l, cs =>
      (if l.isPrefixOf cs then wsRems (cs.drop l.length) else []) ++ [cs]
  | RTok.alts ls, cs =>
      ls.flatMap (fun l => if l.isPrefixOf cs then [cs.drop l.length] else [])

/-- All remainders after matching a token sequence as a prefix of `cs`, in
preference order. -/
def matchToks : List RTok → List Char → List (List Char)
  | [], cs => [cs]
  | t :: ts, cs => (matchTok t cs).flatMap (matchToks ts)

/-- First remainder (in preference order) starting with a digit; the
greedy `(\d+)` group is its maximal digit run. -/
def firstDigits : List (List Char) → Option (List Char)
  | [] => none
  | r :: rs =>
      match r with
      | c :: _ => if c.isDigit then some (r.takeWhile Char.isDigit) else firstDigits rs
      | [] => firstDigits rs

/-- `re.search` for a pattern `toks(\d+)`: scan start positions left to
right, returning the digits of the group at the first position where the
whole pattern matches. -/
def searchNum (toks : List RTok) : Nat → List Char → Option (List Char)
  | 0, _ => none
  | _ + 1, [] =>
      match firstDigits (matchToks toks []) with
      | some ds => some ds
      | none => none
  | f + 1, cs =>
      match firstDigits (matchToks toks cs) with
      | some ds => some ds
      | none =>
          match cs with
          | [] => none
          | _ :: cs' => searchNum toks f cs'

/-- `re.search` for a groupless pattern: scan start positions left to
right for any successful match. -/
def searchPlain (toks : List RTok) : Nat → List Char → Bool
  | 0, _ => false
  | _ + 1, [] => ¬ (matchToks toks []) = []
  | f + 1, cs =>
      if ¬ (matchToks toks cs) = [] then true
      else
        match cs with
        | [] => false
        | _ :: cs' => searchPlain toks f cs'

/-- One entry of `self.reference_patterns`: a pattern ending in a `(\d+)`
group whose template puts the group at the end, or a groupless pattern
with a constant template. -/
inductive RefPat where
  | num : List RTok → String → RefPat
  | plain : List RTok → String → RefPat

/-- `self.reference_patterns`, in insertion order, with each regex
translated token by token. -/
def reference_patterns : List RefPat :=
  [RefPat.num [RTok.lit "likut".data, RTok.optC ['e'], RTok.optC ['i', 'y'], RTok.ws0,
      RTok.lit "moharan".data, RTok.ws0] "Likutei Moharan ",
   RefPat.num [RTok.lit "likut".data, RTok.optC ['e'], RTok.optC ['i', 'y'], RTok.ws0,
      RTok.lit "moharan".data, RTok.ws0, RTok.optLitWs "part".data,
      RTok.alts ["ii".data, "2".data], RTok.ws0] "Likutei Moharan, Part II ",
   RefPat.num [RTok.lit "lm".data, RTok.ws0] "Likutei Moharan ",
   RefPat.num [RTok.lit "torah".data, RTok.ws0] "Likutei Moharan ",
   RefPat.num [RTok.lit "teaching".data, RTok.ws0] "Likutei Moharan ",
   RefPat.num [RTok.lit "lesson".data, RTok.ws0] "Likutei Moharan ",
   RefPat.num [RTok.lit "enseignement".data, RTok.ws0] "Likutei Moharan ",
   RefPat.num [RTok.lit "sippur".data, RTok.optC ['e'], RTok.optC ['i', 'y'], RTok.ws0,
      RTok.lit "maasi".data, RTok.optC ['y'], RTok.lit "ot".data, RTok.ws0]
      "Sippurei Maasiyot ",
   RefPat.num [RTok.lit "tale".data, RTok.ws0] "Sippurei Maasiyot ",
   RefPat.num [RTok.lit "story".data, RTok.ws0] "Sippurei Maasiyot ",
   RefPat.num [RTok.lit "sichot".data, RTok.ws0, RTok.lit "h".data, RTok.optC ['a'],
      RTok.lit "ran".data, RTok.ws0] "Sichot HaRan ",
   RefPat.num [RTok.lit "conversation".data, RTok.ws0] "Sichot HaRan ",
   RefPat.num [RTok.lit "chay".data, RTok.optC ['e'], RTok.optC ['i', 'y'], RTok.ws0,
      RTok.lit "moharan".data, RTok.ws0] "Chayei Moharan ",
   RefPat.num [RTok.lit "likut".data, RTok.optC ['e'], RTok.optC ['i', 'y'], RTok.ws0,
      RTok.lit "tefilot".data, RTok.ws0] "Likutei Tefilot, Volume I ",
   RefPat.num [RTok.lit "prayer".data, RTok.ws0] "Likutei Tefilot, Volume I ",
   RefPat.plain [RTok.lit "tikkun".data, RTok.ws0, RTok.lit "h".data, RTok.optC ['a'],
      RTok.lit "klali".data] "Tikkun HaKlali",
   RefPat.plain [RTok.lit "seven".data, RTok.ws0, RTok.lit "beggars".data]
      "Sippurei Maasiyot 13",
   RefPat.plain [RTok.lit "sept".data, RTok.ws0, RTok.lit "mendiants".data]
      "Sippurei Maasiyot 13"]

/-- The `for pattern, template in self.reference_patterns.items()` loop:
first matching pattern wins; a `(\d+)` group is substituted into the
template's trailing `{}`. -/
def tryPatterns : List RefPat → List Char → Option String
  | [], _ => none
  | RefPat.num toks tmpl :: ps, q =>
      match searchNum toks (q.length + 1) q with
      | some ds => some (tmpl ++ ⟨ds⟩)
      | none => tryPatterns ps q
  | RefPat.plain toks tmpl :: ps, q =>
      if searchPlain toks (q.length + 1) q then some tmpl else tryPatterns ps q

/-- `GUEZIRagEngineV2._extract_reference`. -/
def extract_reference (query : String) : Option String :=
  let ql := (lowerStr query).data
  tryPatterns reference_patterns (preNumberPass ql)

/-- A search-result dict.  `match_type` is `none` for the raw semantic
results coming back from `EmbeddingsManager.search`, which do not carry
that key. -/
structure SearchResult where
  id : String
  text : String
  metadata : Metadata
  relevance_score : ℚ
  match_type : Option String
deriving DecidableEq

/-- The scan of `_search_by_reference` over `enumerate(metadatas)`:
collect every entry whose `ref` equals the requested reference
case-insensitively, with relevance score 1.0 and the `exact_reference`
tag. -/
def refMatches (docs : List String) (refLower : String) :
    Nat → List Metadata → List SearchResult
  | _, [] => []
  | i, m :: ms =>
      (if lowerStr m.ref = refLower
       then [SearchResult.mk ("doc_" ++ natRepr i) (docs.getD i "") m 1
              (some "exact_reference")]
       else []) ++ refMatches docs refLower (i + 1) ms

/-- `GUEZIRagEngineV2._search_by_reference` (the engine reads
`self.embeddings.documents` / `self.embeddings.metadatas` directly). -/
def search_by_reference (st : EmbState) (ref : String) (n_results : Nat) :
    List SearchResult :=
  (refMatches st.documents (lowerStr ref) 0 st.metadatas).take n_results

/-- The merge loop of `hybrid_search`: append each semantic result whose
`ref` has not been seen, tagging it `semantic` and recording its `ref`. -/
def mergeSem (seen : List String) : List SearchResult → List SearchResult
  | [] => []
  | sr :: rest =>
      if sr.metadata.ref ∈ seen then mergeSem seen rest
      else
        SearchResult.mk sr.id sr.text sr.metadata sr.relevance_score (some "semantic")
          :: mergeSem (sr.metadata.ref :: seen) rest

/-- `GUEZIRagEngineV2.hybrid_search`.  `semanticSearch` stands for the
`self.embeddings.search` collaborator call (whose output depends on the
external embedding model and the FAISS nearest-neighbour computation). -/
def hybrid_search (st : EmbState) (semanticSearch : String → Nat → List SearchResult)
    (query : String) (n_results : Nat) : List SearchResult :=
  let results :=
    match extract_reference query with
    | some ref => search_by_reference st ref 3
    | none => []
  let seen := results.map (fun r => r.metadata.ref)
  (results ++ mergeSem seen (semanticSearch query n_results)).take n_results

/-! ## General helper lemmas -/

/-- Appending three strings reassociates. -/
theorem strAppendAssoc (a b c : String) : a ++ b ++ c = a ++ (b ++ c) := by
  apply congrArg String.mk
  simp [String.data_append]

/-- Value of a digit list with one digit appended. -/
theorem digitsVal_append (l : List Char) (c : Char) :
    digitsVal (l ++ [c]) = 10 * digitsVal l + (c.toNat - 48) := by
  simp [digitsVal, List.foldl_append]

/-- Character value of `Nat.digitChar` on a single digit. -/
theorem digitChar_val (n : Nat) (h : n < 10) : (Nat.digitChar n).toNat - 48 = n := by
  interval_cases n <;> decide

/-- With sufficient fuel, `natReprAux` is a faithful decimal writer. -/
theorem natReprAux_val : ∀ f n, n < f → digitsVal (natReprAux f n) = n := by
  intro f
  induction f with
  | zero => intro n h; omega
  | succ f ih =>
      intro n h
      by_cases h10 : n < 10
      · simp [natReprAux, h10, digitsVal, digitChar_val n h10]
      · have hn : 0 < n := by omega
        have hdiv : n / 10 < n := Nat.div_lt_self hn (by norm_num)
        have hf : n / 10 < f := by omega
        simp only [natReprAux, h10, if_false]
        rw [digitsVal_append, ih (n / 10) hf, digitChar_val (n % 10) (Nat.mod_lt n (by norm_num))]
        omega

/-- Decimal representations of distinct naturals differ. -/
theorem natRepr_inj {m n : Nat} (h : natRepr m = natRepr n) : m = n := by
  have hd : natReprAux (m + 1) m = natReprAux (n + 1) n := congrArg String.data h
  have hm := natReprAux_val (m + 1) m (Nat.lt_succ_self m)
  have hn := natReprAux_val (n + 1) n (Nat.lt_succ_self n)
  rw [← hm, ← hn, hd]

/-! ## Claim C7 -/

/-- C7: `_extract_reference` maps both "Teaching 7" and "the seventh
teaching" to the same non-none canonical reference, because the
number-word pre-pass rewrites "seventh teaching" to "teaching 7" before
the ordered patterns run. -/
theorem extract_reference_teaching_seven_agrees :
    extract_reference "Teaching 7" = some "Likutei Moharan 7" ∧
    extract_reference "the seventh teaching" = some "Likutei Moharan 7" := by
  constructor <;> decide

/-! ## Claim C6 -/

/-- C6: a document whose normalized combined text fits in
`max_chunk_size` yields exactly one chunk, with `chunk_index = 0`,
`total_chunks = 1` and text equal to the normalized combined text. -/
theorem chunk_document_short_doc_single_chunk (cfg : SemanticChunker) (doc : Document)
    (h : (normalizeDoc doc).length ≤ cfg.max_chunk_size) :
    chunk_document cfg doc =
      [Chunk.mk doc.title doc.ref (doc.ref ++ "_0") (strTake 4000 doc.hebrew)
        (strTake 4000 doc.english) (normalizeDoc doc) 0 1 none] := by
  simp [chunk_document, h]

/-- Witness for C6: the spec's short-document scenario evaluated
concretely. -/
theorem chunk_document_short_doc_single_chunk_witness :
    (normalizeDoc ⟨"Likutei Moharan", "Likutei Moharan 1", "", "Torah 1 text about joy", ""⟩).length
        ≤ (1000 : Nat) ∧
    chunk_document ⟨1000, 200, 1000, 150⟩
        ⟨"Likutei Moharan", "Likutei Moharan 1", "", "Torah 1 text about joy", ""⟩ =
      [Chunk.mk "Likutei Moharan" "Likutei Moharan 1" ("Likutei Moharan 1" ++ "_0") ""
        (strTake 4000 "Torah 1 text about joy")
        (normalizeDoc ⟨"Likutei Moharan", "Likutei Moharan 1", "", "Torah 1 text about joy", ""⟩)
        0 1 none] :=
  ⟨by decide,
   chunk_document_short_doc_single_chunk ⟨1000, 200, 1000, 150⟩
     ⟨"Likutei Moharan", "Likutei Moharan 1", "", "Torah 1 text about joy", ""⟩ (by decide)⟩

/-! ## Claim C2 -/

/-- A string all of whose characters are whitespace (this includes the
empty string). -/
def allWsStr (s : String) : Prop :=
  ∀ c ∈ s.data, pyWs c

instance (s : String) : Decidable (allWsStr s) :=
  inferInstanceAs (Decidable (∀ c ∈ s.data, pyWs c = true))

/-- Whitespace characters are not `<`. -/
theorem pyWs_ne_lt {c : Char} (h : pyWs c) : ¬ c = '<' := by
  intro hEq
  rw [hEq] at h
  exact absurd h (by decide)

/-- The HTML-stripping scan leaves a string without `<` unchanged. -/
theorem stripHtmlAux_no_lt : ∀ (f : Nat) (cs : List Char), (∀ c ∈ cs, ¬ c = '<') →
    stripHtmlAux f cs = cs := by
  intro f
  induction f with
  | zero => intro cs _; rfl
  | succ f ih =>
      intro cs h
      match cs with
      | [] => rfl
      | c :: cs' =>
          have hc : ¬ c = '<' := h c (by simp)
          simp only [stripHtmlAux, hc, if_false]
          rw [ih cs' (fun x hx => h x (by simp [hx]))]

/-- Collapsing with a pending space skips a whitespace run. -/
theorem collapseAux_ws_true : ∀ (w : List Char), (∀ c ∈ w, pyWs c) → ∀ l,
    collapseAux (w ++ l) true = collapseAux l true := by
  intro w
  induction w with
  | nil => intro _ l; rfl
  | cons c w' ih =>
      intro h l
      have hc : pyWs c = true := h c (by simp)
      show collapseAux (c :: (w' ++ l)) true = collapseAux l true
      simp only [collapseAux, hc, if_true]
      exact ih (fun x hx => h x (by simp [hx])) l

/-- Collapsing a non-empty whitespace run emits a single space. -/
theorem collapseAux_ws_false (w : List Char) (hne : ¬ w = []) (h : ∀ c ∈ w, pyWs c)
    (l : List Char) : collapseAux (w ++ l) false = ' ' :: collapseAux l true := by
  match w with
  | [] => exact absurd rfl hne
  | c :: w' =>
      have hc : pyWs c = true := h c (by simp)
      show collapseAux (c :: (w' ++ l)) false = ' ' :: collapseAux l true
      simp only [collapseAux, hc, if_true, Bool.false_eq_true, if_false]
      exact congrArg (fun t => ' ' :: t) (collapseAux_ws_true w' (fun x hx => h x (by simp [hx])) l)

/-- Collapsing at a non-whitespace character copies it (from the
no-pending-space state). -/
theorem collapseAux_cons_nonws_false (c : Char) (l : List Char) (h : pyWs c = false) :
    collapseAux (c :: l) false = c :: collapseAux l false := by
  simp [collapseAux, h]

/-- Collapsing at a non-whitespace character copies it (from the
pending-space state). -/
theorem collapseAux_cons_nonws_true (c : Char) (l : List Char) (h : pyWs c = false) :
    collapseAux (c :: l) true = c :: collapseAux l false := by
  simp [collapseAux, h]

/-- Shape of the raw combined text of a document whose five fields are all
whitespace: the bracketed tag around the whitespace title and ref,
followed by whitespace. -/
theorem combinedRaw_ws_data (doc : Document) (hh : allWsStr doc.hebrew)
    (he : allWsStr doc.english) (hc : allWsStr doc.combined) :
    ∃ rest, (combinedRaw doc).data =
        '[' :: (doc.title.data ++ ' ' :: '-' :: ' ' :: (doc.ref.data ++ ']' :: rest)) ∧
      ∀ c ∈ rest, pyWs c := by
  by_cases hE : doc.english = ""
  · by_cases hH : doc.hebrew = ""
    · by_cases hC : doc.combined = ""
      · refine ⟨[], ?_, by simp⟩
        simp [combinedRaw, hE, hH, hC, joinNN, String.data_append, List.append_assoc]
      · refine ⟨'\n' :: '\n' :: doc.combined.data, ?_, ?_⟩
        · simp [combinedRaw, hE, hH, hC, joinNN, String.data_append, List.append_assoc]
        · intro c hcm
          simp only [List.mem_cons] at hcm
          rcases hcm with rfl | rfl | h1
          · decide
          · decide
          · exact hc c h1
    · refine ⟨'\n' :: '\n' :: doc.hebrew.data, ?_, ?_⟩
      · simp [combinedRaw, hE, hH, joinNN, String.data_append, List.append_assoc]
      · intro c hcm
        simp only [List.mem_cons] at hcm
        rcases hcm with rfl | rfl | h1
        · decide
        · decide
        · exact hh c h1
  · by_cases hH : doc.hebrew = ""
    · refine ⟨'\n' :: '\n' :: doc.english.data, ?_, ?_⟩
      · simp [combinedRaw, hE, hH, joinNN, String.data_append, List.append_assoc]
      · intro c hcm
        simp only [List.mem_cons] at hcm
        rcases hcm with rfl | rfl | h1
        · decide
        · decide
        · exact he c h1
    · refine ⟨'\n' :: '\n' :: (doc.english.data ++ '\n' :: '\n' :: doc.hebrew.data), ?_, ?_⟩
      · simp [combinedRaw, hE, hH, joinNN, String.data_append, List.append_assoc]
      · intro c hcm
        simp only [List.mem_cons, List.mem_append] at hcm
        rcases hcm with rfl | rfl | h2 | rfl | rfl | h3
        · decide
        · decide
        · exact he c h2
        · decide
        · decide
        · exact hh c h3

/-- The normalized combined text of an all-whitespace document is the bare
tag. -/
theorem normalizeDoc_ws (doc : Document) (ht : allWsStr doc.title)
    (hr : allWsStr doc.ref) (hh : allWsStr doc.hebrew) (he : allWsStr doc.english)
    (hc : allWsStr doc.combined) : normalizeDoc doc = "[ - ]" := by
  obtain ⟨rest, hshape, hrest⟩ := combinedRaw_ws_data doc hh he hc
  have hnolt : ∀ c ∈ (combinedRaw doc).data, ¬ c = '<' := by
    intro c hcm
    rw [hshape] at hcm
    simp only [List.mem_cons, List.mem_append] at hcm
    rcases hcm with rfl | hcm
    · decide
    rcases hcm with hcm | hcm
    · exact pyWs_ne_lt (ht c hcm)
    rcases hcm with rfl | hcm
    · decide
    rcases hcm with rfl | hcm
    · decide
    rcases hcm with rfl | hcm
    · decide
    rcases hcm with hcm | hcm
    · exact pyWs_ne_lt (hr c hcm)
    rcases hcm with rfl | hcm
    · decide
    · exact pyWs_ne_lt (hrest c hcm)
  have hstrip : stripHtml (combinedRaw doc) = combinedRaw doc := by
    apply congrArg String.mk
    exact stripHtmlAux_no_lt _ _ hnolt
  have e1 : (combinedRaw doc).data =
      '[' :: ((doc.title.data ++ [' ']) ++ ('-' :: ((' ' :: doc.ref.data) ++ (']' :: rest)))) := by
    rw [hshape]; simp [List.append_assoc]
  have hcoll : collapseAux (combinedRaw doc).data false =
      '[' :: ' ' :: '-' :: ' ' :: ']' :: collapseAux rest false := by
    rw [e1]
    rw [collapseAux_cons_nonws_false '[' _ (by decide)]
    rw [collapseAux_ws_false (doc.title.data ++ [' ']) (by simp)
      (by intro c hcm
          rcases List.mem_append.mp hcm with h2 | h2
          · exact ht c h2
          · simp at h2; rw [h2]; decide) _]
    rw [collapseAux_cons_nonws_true '-' _ (by decide)]
    rw [collapseAux_ws_false (' ' :: doc.ref.data) (by simp)
      (by intro c hcm
          rcases List.mem_cons.mp hcm with h3 | h3
          · rw [h3]; decide
          · exact hr c h3) _]
    rw [collapseAux_cons_nonws_true ']' _ (by decide)]
  have hrest2 : collapseAux rest false = [] ∨ collapseAux rest false = [' '] := by
    match rest, hrest with
    | [], _ => exact Or.inl rfl
    | c :: rest', hrest' =>
        right
        simpa using collapseAux_ws_false (c :: rest') (by simp) hrest' []
  show pyStrip (collapseWs (stripHtml (combinedRaw doc))) = "[ - ]"
  rw [hstrip]
  apply congrArg String.mk
  show ((((collapseAux (combinedRaw doc).data false).dropWhile pyWs).reverse.dropWhile
    pyWs).reverse) = "[ - ]".data
  rw [hcoll]
  rcases hrest2 with h | h <;> rw [h] <;> decide

/-- C2 (amended): a document whose fields are all empty or whitespace-only
yields exactly one chunk whose text is the bare `[ - ]` tag — not the
empty chunk sequence (and no error: the function is total). -/
theorem chunk_document_ws_doc_single_tag_chunk (cfg : SemanticChunker) (doc : Document)
    (ht : allWsStr doc.title) (hr : allWsStr doc.ref) (hh : allWsStr doc.hebrew)
    (he : allWsStr doc.english) (hc : allWsStr doc.combined)
    (hmax : 5 ≤ cfg.max_chunk_size) :
    chunk_document cfg doc =
      [Chunk.mk doc.title doc.ref (doc.ref ++ "_0") (strTake 4000 doc.hebrew)
        (strTake 4000 doc.english) "[ - ]" 0 1 none] := by
  have hn := normalizeDoc_ws doc ht hr hh he hc
  have hlen : (normalizeDoc doc).length ≤ cfg.max_chunk_size := by
    rw [hn]; exact hmax
  rw [chunk_document_short_doc_single_chunk cfg doc hlen, hn]

/-- Witness for C2 (amended): an all-whitespace document evaluated
concretely. -/
theorem chunk_document_ws_doc_single_tag_chunk_witness :
    chunk_document ⟨1000, 200, 2000, 150⟩ ⟨" ", "", "\t", " ", ""⟩ =
      [Chunk.mk " " "" ("" ++ "_0") (strTake 4000 "\t") (strTake 4000 " ") "[ - ]" 0 1 none] :=
  chunk_document_ws_doc_single_tag_chunk ⟨1000, 200, 2000, 150⟩ ⟨" ", "", "\t", " ", ""⟩
    (by decide) (by decide) (by decide) (by decide) (by decide) (by decide)

/-- Counterexample for C2 as stated: the all-empty document yields one
chunk (carrying the `[ - ]` tag text), not the empty sequence. -/
theorem chunk_document_empty_doc_cex :
    chunk_document ⟨1000, 200, 2000, 150⟩ ⟨"", "", "", "", ""⟩ =
        [Chunk.mk "" "" "_0" "" "" "[ - ]" 0 1 none] ∧
      ¬ chunk_document ⟨1000, 200, 2000, 150⟩ ⟨"", "", "", "", ""⟩ = [] := by
  constructor <;> decide

/-! ## Claim C9 -/

/-- Left-cancellation for string concatenation. -/
theorem strAppend_left_cancel {p a b : String} (h : p ++ a = p ++ b) : a = b := by
  obtain ⟨ad⟩ := a
  obtain ⟨bd⟩ := b
  have hd := congrArg String.data h
  simp only [String.data_append] at hd
  exact congrArg String.mk (List.append_cancel_left hd)

/-- Every chunk built by the enumeration loop carries the document's ref,
an id of the `{ref}_chunk_{index}` form, an index at least the start
index, and a text drawn from the input chunk-text list. -/
theorem mkChunks_mem {title ref : String} {total : Nat} :
    ∀ (i : Nat) (ts : List String) (c : Chunk), c ∈ mkChunks title ref total i ts →
      c.ref = ref ∧ c.chunk_id = (ref ++ "_chunk_") ++ natRepr c.chunk_index ∧
        i ≤ c.chunk_index ∧ c.combined ∈ ts := by
  intro i ts
  induction ts generalizing i with
  | nil => intro c hcm; simp [mkChunks] at hcm
  | cons t ts ih =>
      intro c hcm
      simp only [mkChunks, List.mem_cons] at hcm
      rcases hcm with rfl | hcm
      · exact ⟨rfl, rfl, Nat.le_refl _, by simp⟩
      · obtain ⟨h1, h2, h3, h4⟩ := ih (i + 1) c hcm
        exact ⟨h1, h2, by omega, by simp [h4]⟩

/-- Chunk ids built by the enumeration loop are pairwise distinct. -/
theorem mkChunks_pairwise (title ref : String) (total : Nat) :
    ∀ (i : Nat) (ts : List String),
      (mkChunks title ref total i ts).Pairwise (fun a b => ¬ a.chunk_id = b.chunk_id) := by
  intro i ts
  induction ts generalizing i with
  | nil => simp [mkChunks]
  | cons t ts ih =>
      simp only [mkChunks]
      refine List.Pairwise.cons ?_ (ih (i + 1))
      intro b hb hEq
      obtain ⟨_, hid, hle, _⟩ := mkChunks_mem (i + 1) ts b hb
      rw [hid] at hEq
      have hidx := natRepr_inj (strAppend_left_cancel hEq)
      omega

/-- C9 (amended): every chunk's id is either `{ref}_{index}` (the
single-chunk branch, where the index is 0) or `{ref}_chunk_{index}` (the
split branch), and chunk ids are pairwise distinct within one document's
chunk sequence. -/
theorem chunk_document_chunk_ids (cfg : SemanticChunker) (doc : Document) :
    (∀ c ∈ chunk_document cfg doc,
        c.chunk_id = c.ref ++ "_" ++ natRepr c.chunk_index ∨
        c.chunk_id = c.ref ++ "_chunk_" ++ natRepr c.chunk_index) ∧
    (chunk_document cfg doc).Pairwise (fun a b => ¬ a.chunk_id = b.chunk_id) := by
  by_cases h : (normalizeDoc doc).length ≤ cfg.max_chunk_size
  · rw [chunk_document_short_doc_single_chunk cfg doc h]
    constructor
    · intro c hcm
      simp only [List.mem_singleton] at hcm
      subst hcm
      left
      show doc.ref ++ "_0" = doc.ref ++ "_" ++ natRepr 0
      rw [strAppendAssoc]
      exact congrArg (fun s => doc.ref ++ s) (by decide)
    · simp
  · constructor
    · intro c hcm
      simp only [chunk_document, h, if_false] at hcm
      obtain ⟨h1, h2, _, _⟩ := mkChunks_mem 0 _ c hcm
      right
      rw [h2, h1]
    · simp only [chunk_document, h, if_false]
      exact mkChunks_pairwise _ _ _ 0 _

/-- Witness for C9 (amended): the id-format disjunction instantiated on a
concrete chunk of a concrete document. -/
theorem chunk_document_chunk_ids_witness :
    Chunk.mk "" "r" "r_chunk_0" "" "" "[ - r] abcdefghijklmnop" 0 1 (some "r") ∈
        chunk_document ⟨10, 0, 10, 3⟩ ⟨"", "r", "", "abcdefghijklmnop", ""⟩ ∧
      ((Chunk.mk "" "r" "r_chunk_0" "" "" "[ - r] abcdefghijklmnop" 0 1
          (some "r")).chunk_id =
        (Chunk.mk "" "r" "r_chunk_0" "" "" "[ - r] abcdefghijklmnop" 0 1
          (some "r")).ref ++ "_" ++ natRepr 0 ∨
       (Chunk.mk "" "r" "r_chunk_0" "" "" "[ - r] abcdefghijklmnop" 0 1
          (some "r")).chunk_id =
        (Chunk.mk "" "r" "r_chunk_0" "" "" "[ - r] abcdefghijklmnop" 0 1
          (some "r")).ref ++ "_chunk_" ++ natRepr 0) :=
  ⟨by decide,
   (chunk_document_chunk_ids ⟨10, 0, 10, 3⟩ ⟨"", "r", "", "abcdefghijklmnop", ""⟩).1
     (Chunk.mk "" "r" "r_chunk_0" "" "" "[ - r] abcdefghijklmnop" 0 1 (some "r"))
     (by decide)⟩

/-- Counterexample for C9 as stated: a split document's chunk with index 0
and ref `r` gets id `r_chunk_0`, not the claimed `r_0`. -/
theorem chunk_id_format_cex :
    ((chunk_document ⟨10, 0, 10, 3⟩ ⟨"", "r", "", "abcdefghijklmnop", ""⟩).map
        (fun c => (c.chunk_id, c.ref, c.chunk_index))) = [("r_chunk_0", "r", 0)] ∧
      ¬ ("r_chunk_0" : String) = "r" ++ "_" ++ natRepr 0 := by
  constructor <;> decide

/-! ## Claims C1 and C4: hybrid search merge -/

/-- Every result produced by the reference scan is tagged
`exact_reference`. -/
theorem refMatches_tag (docs : List String) (rl : String) :
    ∀ (i : Nat) (ms : List Metadata) (x : SearchResult), x ∈ refMatches docs rl i ms →
      x.match_type = some "exact_reference" := by
  intro i ms
  induction ms generalizing i with
  | nil => intro x hx; simp [refMatches] at hx
  | cons m ms ih =>
      intro x hx
      simp only [refMatches] at hx
      rcases List.mem_append.mp hx with h1 | h1
      · by_cases hc : lowerStr m.ref = rl
        · simp only [hc, if_true, List.mem_singleton] at h1
          subst h1; rfl
        · simp [hc] at h1
      · exact ih (i + 1) x h1

/-- Every result of `_search_by_reference` is tagged `exact_reference`. -/
theorem search_by_reference_tag (st : EmbState) (ref : String) (n : Nat) :
    ∀ x ∈ search_by_reference st ref n, x.match_type = some "exact_reference" :=
  fun x hx => refMatches_tag st.documents (lowerStr ref) 0 st.metadatas x
    (List.take_subset n _ hx)

/-- Every result appended by the merge loop is tagged `semantic`. -/
theorem mergeSem_tag : ∀ (l : List SearchResult) (seen : List String)
    (x : SearchResult), x ∈ mergeSem seen l → x.match_type = some "semantic" := by
  intro l
  induction l with
  | nil => intro seen x hx; simp [mergeSem] at hx
  | cons sr rest ih =>
      intro seen x hx
      simp only [mergeSem] at hx
      by_cases hc : sr.metadata.ref ∈ seen
      · exact ih seen x (by simpa [hc] using hx)
      · simp only [hc, if_false] at hx
        rcases List.mem_cons.mp hx with h1 | h1
        · subst h1; rfl
        · exact ih _ x h1

/-- No result appended by the merge loop carries a ref that was already
seen. -/
theorem mergeSem_not_seen : ∀ (l : List SearchResult) (seen : List String)
    (x : SearchResult), x ∈ mergeSem seen l → ¬ x.metadata.ref ∈ seen := by
  intro l
  induction l with
  | nil => intro seen x hx; simp [mergeSem] at hx
  | cons sr rest ih =>
      intro seen x hx
      simp only [mergeSem] at hx
      by_cases hc : sr.metadata.ref ∈ seen
      · exact ih seen x (by simpa [hc] using hx)
      · simp only [hc, if_false] at hx
        rcases List.mem_cons.mp hx with h1 | h1
        · subst h1; exact hc
        · intro hmem
          exact ih _ x h1 (List.mem_cons_of_mem _ hmem)

/-- Results appended by the merge loop have pairwise distinct refs. -/
theorem mergeSem_pairwise : ∀ (l : List SearchResult) (seen : List String),
    (mergeSem seen l).Pairwise (fun a b => ¬ a.metadata.ref = b.metadata.ref) := by
  intro l
  induction l with
  | nil => intro seen; simp [mergeSem]
  | cons sr rest ih =>
      intro seen
      simp only [mergeSem]
      by_cases hc : sr.metadata.ref ∈ seen
      · simpa [hc] using ih seen
      · simp only [hc, if_false]
        refine List.Pairwise.cons ?_ (ih _)
        intro b hb hEq
        have hns := mergeSem_not_seen rest _ b hb
        exact hns (by rw [← hEq]; exact List.mem_cons_self _ _)

/-- Unfolding of `hybrid_search` when a reference is extracted. -/
theorem hybrid_search_eq (st : EmbState) (sem : String → Nat → List SearchResult)
    (q : String) (n : Nat) (r : String) (href : extract_reference q = some r) :
    hybrid_search st sem q n =
      (search_by_reference st r 3 ++
        mergeSem ((search_by_reference st r 3).map (fun x => x.metadata.ref))
          (sem q n)).take n := by
  simp [hybrid_search, href]

/-- Unfolding of `hybrid_search` when no reference is extracted. -/
theorem hybrid_search_eq_none (st : EmbState) (sem : String → Nat → List SearchResult)
    (q : String) (n : Nat) (href : extract_reference q = none) :
    hybrid_search st sem q n = (mergeSem [] (sem q n)).take n := by
  simp [hybrid_search, href, mergeSem]

/-- Core ordering fact about the merged list: positions holding an
`exact_reference` tag lie inside the exact prefix, positions holding a
`semantic` tag lie beyond it. -/
theorem mergedTake_position (A l : List SearchResult) (n i : Nat) (x : SearchResult)
    (hA : ∀ y ∈ A, y.match_type = some "exact_reference")
    (hx : ((A ++ mergeSem (A.map (fun y => y.metadata.ref)) l).take n)[i]? = some x) :
    (x.match_type = some "exact_reference" → i < A.length) ∧
      (x.match_type = some "semantic" →
        A.length ≤ i ∧ (mergeSem (A.map (fun y => y.metadata.ref)) l)[i - A.length]? = some x) := by
  set B := mergeSem (A.map (fun y => y.metadata.ref)) l with hB
  have hin : i < n := by
    rcases List.getElem?_eq_some_iff.mp hx with ⟨hlt, _⟩
    have := List.length_take n (A ++ B)
    omega
  rw [List.getElem?_take_of_lt hin] at hx
  by_cases hiA : i < A.length
  · constructor
    · intro _; exact hiA
    · intro hsem
      rw [List.getElem?_append_left hiA] at hx
      have hmem : x ∈ A := by
        rcases List.getElem?_eq_some_iff.mp hx with ⟨hlt, rfl⟩
        exact List.getElem_mem hlt
      have := hA x hmem
      rw [hsem] at this
      exact absurd this (by decide)
  · push_neg at hiA
    constructor
    · intro hex
      rw [List.getElem?_append_right hiA] at hx
      have hmem : x ∈ B := by
        rcases List.getElem?_eq_some_iff.mp hx with ⟨hlt, rfl⟩
        exact List.getElem_mem hlt
      have := mergeSem_tag l _ x hmem
      rw [hex] at this
      exact absurd this (by decide)
    · intro _
      rw [List.getElem?_append_right hiA] at hx
      exact ⟨hiA, hx⟩

/-- C4: whenever a reference is extracted from the query, every
`exact_reference` result of `hybrid_search` occupies a strictly earlier
position than every `semantic` result, regardless of scores. -/
theorem hybrid_search_exact_before_semantic
    (st : EmbState) (sem : String → Nat → List SearchResult) (q : String) (n : Nat)
    (r : String) (i j : Nat) (ri rj : SearchResult)
    (href : extract_reference q = some r)
    (hi : (hybrid_search st sem q n)[i]? = some ri)
    (hj : (hybrid_search st sem q n)[j]? = some rj)
    (hti : ri.match_type = some "exact_reference")
    (htj : rj.match_type = some "semantic") : i < j := by
  rw [hybrid_search_eq st sem q n r href] at hi hj
  have h1 := (mergedTake_position (search_by_reference st r 3) (sem q n) n i ri
    (search_by_reference_tag st r 3) hi).1 hti
  have h2 := ((mergedTake_position (search_by_reference st r 3) (sem q n) n j rj
    (search_by_reference_tag st r 3) hj).2 htj).1
  omega

/-- Witness for C4: a concrete state with one exact and one semantic
result. -/
theorem hybrid_search_exact_before_semantic_witness :
    extract_reference "teaching 7" = some "Likutei Moharan 7" ∧
    (hybrid_search ⟨[[1]], ["a"], [⟨"t", "Likutei Moharan 7", "", ""⟩], 3072⟩
        (fun _ _ => [SearchResult.mk "doc_0" "b" ⟨"t2", "Other", "", ""⟩ 0 none])
        "teaching 7" 7)[0]? =
      some (SearchResult.mk "doc_0" "a" ⟨"t", "Likutei Moharan 7", "", ""⟩ 1
        (some "exact_reference")) ∧
    (hybrid_search ⟨[[1]], ["a"], [⟨"t", "Likutei Moharan 7", "", ""⟩], 3072⟩
        (fun _ _ => [SearchResult.mk "doc_0" "b" ⟨"t2", "Other", "", ""⟩ 0 none])
        "teaching 7" 7)[1]? =
      some (SearchResult.mk "doc_0" "b" ⟨"t2", "Other", "", ""⟩ 0 (some "semantic")) ∧
    (0 : Nat) < 1 :=
  ⟨by decide, by decide, by decide,
   hybrid_search_exact_before_semantic
     ⟨[[1]], ["a"], [⟨"t", "Likutei Moharan 7", "", ""⟩], 3072⟩
     (fun _ _ => [SearchResult.mk "doc_0" "b" ⟨"t2", "Other", "", ""⟩ 0 none])
     "teaching 7" 7 "Likutei Moharan 7" 0 1
     (SearchResult.mk "doc_0" "a" ⟨"t", "Likutei Moharan 7", "", ""⟩ 1
       (some "exact_reference"))
     (SearchResult.mk "doc_0" "b" ⟨"t2", "Other", "", ""⟩ 0 (some "semantic"))
     (by decide) (by decide) (by decide) (by decide) (by decide)⟩

/-- Helper for C1: in the merged-and-truncated result list, a
`semantic`-tagged result's ref differs from the ref of every result at an
earlier position. -/
theorem mergedTake_ref_fresh (A l : List SearchResult) (n i j : Nat)
    (ri rj : SearchResult)
    (hA : ∀ y ∈ A, y.match_type = some "exact_reference")
    (hij : i < j)
    (hi : ((A ++ mergeSem (A.map (fun y => y.metadata.ref)) l).take n)[i]? = some ri)
    (hj : ((A ++ mergeSem (A.map (fun y => y.metadata.ref)) l).take n)[j]? = some rj)
    (htj : rj.match_type = some "semantic") :
    ¬ ri.metadata.ref = rj.metadata.ref := by
  set B := mergeSem (A.map (fun y => y.metadata.ref)) l with hB
  obtain ⟨hjA, hjB⟩ := (mergedTake_position A l n j rj hA hj).2 htj
  have hin : i < n := by
    rcases List.getElem?_eq_some_iff.mp hi with ⟨hlt, _⟩
    have := List.length_take n (A ++ B)
    omega
  rw [List.getElem?_take_of_lt hin] at hi
  have hjmem : rj ∈ B := by
    rcases List.getElem?_eq_some_iff.mp hjB with ⟨hlt, rfl⟩
    exact List.getElem_mem hlt
  by_cases hiA : i < A.length
  · rw [List.getElem?_append_left hiA] at hi
    have hmem : ri ∈ A := by
      rcases List.getElem?_eq_some_iff.mp hi with ⟨hlt, rfl⟩
      exact List.getElem_mem hlt
    have hseen : ri.metadata.ref ∈ A.map (fun y => y.metadata.ref) :=
      List.mem_map_of_mem _ hmem
    have hfresh := mergeSem_not_seen l _ rj hjmem
    intro hEq
    rw [hEq] at hseen
    exact hfresh hseen
  · push_neg at hiA
    rw [List.getElem?_append_right hiA] at hi
    have hp := mergeSem_pairwise l (A.map (fun y => y.metadata.ref))
    rcases List.getElem?_eq_some_iff.mp hi with ⟨hlt1, he1⟩
    rcases List.getElem?_eq_some_iff.mp hjB with ⟨hlt2, he2⟩
    have hR := List.pairwise_iff_getElem.mp hp (i - A.length) (j - A.length) hlt1 hlt2
      (by omega)
    rw [he1, he2] at hR
    exact hR

/-- C1 (amended): in a `hybrid_search` result list, every
`semantic`-tagged result has a ref different from the ref of every result
at an earlier position (semantic results are deduplicated against each
other and against the exact-reference prefix); duplicate refs can occur
only among the `exact_reference` results. -/
theorem hybrid_search_semantic_ref_fresh
    (st : EmbState) (sem : String → Nat → List SearchResult) (q : String) (n : Nat)
    (i j : Nat) (ri rj : SearchResult)
    (hij : i < j)
    (hi : (hybrid_search st sem q n)[i]? = some ri)
    (hj : (hybrid_search st sem q n)[j]? = some rj)
    (htj : rj.match_type = some "semantic") :
    ¬ ri.metadata.ref = rj.metadata.ref := by
  cases href : extract_reference q with
  | none =>
      rw [hybrid_search_eq_none st sem q n href] at hi hj
      exact mergedTake_ref_fresh [] (sem q n) n i j ri rj (by simp) hij
        (by simpa using hi) (by simpa using hj) htj
  | some r =>
      rw [hybrid_search_eq st sem q n r href] at hi hj
      exact mergedTake_ref_fresh (search_by_reference st r 3) (sem q n) n i j ri rj
        (search_by_reference_tag st r 3) hij hi hj htj

/-- Witness for C1 (amended): a concrete search whose semantic result has
a fresh ref. -/
theorem hybrid_search_semantic_ref_fresh_witness :
    (0 : Nat) < 1 ∧
    (hybrid_search ⟨[[1]], ["a"], [⟨"t", "Likutei Moharan 7", "", ""⟩], 3072⟩
        (fun _ _ => [SearchResult.mk "doc_0" "b" ⟨"t2", "Other", "", ""⟩ 0 none])
        "teaching 7" 7)[0]? =
      some (SearchResult.mk "doc_0" "a" ⟨"t", "Likutei Moharan 7", "", ""⟩ 1
        (some "exact_reference")) ∧
    (hybrid_search ⟨[[1]], ["a"], [⟨"t", "Likutei Moharan 7", "", ""⟩], 3072⟩
        (fun _ _ => [SearchResult.mk "doc_0" "b" ⟨"t2", "Other", "", ""⟩ 0 none])
        "teaching 7" 7)[1]? =
      some (SearchResult.mk "doc_0" "b" ⟨"t2", "Other", "", ""⟩ 0 (some "semantic")) ∧
    ¬ (SearchResult.mk "doc_0" "a" ⟨"t", "Likutei Moharan 7", "", ""⟩ 1
        (some "exact_reference")).metadata.ref =
      (SearchResult.mk "doc_0" "b" ⟨"t2", "Other", "", ""⟩ 0
        (some "semantic")).metadata.ref :=
  ⟨by decide, by decide, by decide,
   hybrid_search_semantic_ref_fresh
     ⟨[[1]], ["a"], [⟨"t", "Likutei Moharan 7", "", ""⟩], 3072⟩
     (fun _ _ => [SearchResult.mk "doc_0" "b" ⟨"t2", "Other", "", ""⟩ 0 none])
     "teaching 7" 7 0 1
     (SearchResult.mk "doc_0" "a" ⟨"t", "Likutei Moharan 7", "", ""⟩ 1
       (some "exact_reference"))
     (SearchResult.mk "doc_0" "b" ⟨"t2", "Other", "", ""⟩ 0 (some "semantic"))
     (by decide) (by decide) (by decide) (by decide)⟩

/-- Counterexample for C1 as stated: when the index holds two chunks with
the same ref, a query resolving that ref returns both from the
reference-lookup step — two results with equal refs. -/
theorem hybrid_search_duplicate_ref_cex :
    ((hybrid_search
        ⟨[[1], [1]], ["a", "b"],
          [⟨"t", "Likutei Moharan 7", "", ""⟩, ⟨"t", "Likutei Moharan 7", "", ""⟩], 3072⟩
        (fun _ _ => []) "teaching 7" 7).map
      (fun x => (x.metadata.ref, x.match_type))) =
      [("Likutei Moharan 7", some "exact_reference"),
       ("Likutei Moharan 7", some "exact_reference")] := by
  decide

/-! ## Claim C5 -/

/-- C5 (amended): the parallel-arrays invariant holds for a freshly
created index, load falls back to an empty index when either persisted
file is missing (or unreadable), and the invariant is preserved by
`add_documents` and by `clear_collection`.  (Load performs no consistency
check on a readable pair — see the counterexample.) -/
theorem emb_parallel_invariants (dim : Nat) (st : EmbState) (oracle : EmbOracle)
    (documents : List Document)
    (indexFile : Option (List (List ℚ)))
    (metadataFile : Option (List String × List Metadata)) :
    embInv (createNewIndex dim) ∧
    ((indexFile = none ∨ metadataFile = none) →
      loadOrCreateIndex dim indexFile metadataFile = createNewIndex dim) ∧
    (embInv st → embInv (add_documents st oracle documents)) ∧
    embInv (clear_collection st) := by
  refine ⟨⟨rfl, rfl⟩, ?_, ?_, ⟨rfl, rfl⟩⟩
  · rintro (rfl | rfl)
    · rfl
    · cases indexFile <;> rfl
  · intro hst
    simp only [add_documents]
    split
    · exact hst
    · split
      · exact hst
      · split
        · simp [embInv, createNewIndex]
        · obtain ⟨h1, h2⟩ := hst
          simp only [embInv, List.length_append, List.length_map]
          omega

/-- Witness for C5: the invariant-preservation conjunct applied to a
concrete state, oracle and document list. -/
theorem emb_parallel_invariants_witness :
    embInv (add_documents ⟨[[1]], ["a"], [⟨"", "", "", ""⟩], 1⟩
      (fun _ _ b => some (b.map (fun _ => [1]))) [⟨"", "r", "", "", "x"⟩]) :=
  (emb_parallel_invariants 1 ⟨[[1]], ["a"], [⟨"", "", "", ""⟩], 1⟩
      (fun _ _ b => some (b.map (fun _ => [1]))) [⟨"", "r", "", "", "x"⟩]
      none none).2.2.1 ⟨rfl, rfl⟩

/-- Counterexample for C5 as stated: a persisted pair whose index holds
one vector but whose metadata arrays are empty loads verbatim — the
manager keeps the diverged state instead of falling back to an empty
index. -/
theorem load_inconsistent_pair_loaded_cex :
    (loadOrCreateIndex 3072 (some [[1]]) (some ([], []))).index.length = 1 ∧
    (loadOrCreateIndex 3072 (some [[1]]) (some ([], []))).documents.length = 0 ∧
    ¬ (loadOrCreateIndex 3072 (some [[1]]) (some ([], []))).index = [] :=
  ⟨rfl, rfl, by decide⟩

/-! ## Claims C8 and C10: add_documents -/

/-- A well-behaved embedding collaborator returns one vector per batch
text whenever it succeeds. -/
def oracleLenOk (oracle : EmbOracle) : Prop :=
  ∀ i a b vs, oracle i a b = some vs → vs.length = b.length

/-- One batch iteration yields one (possibly empty) embedding per batch
text. -/
theorem batchEmb_length (oracle : EmbOracle) (hok : oracleLenOk oracle) (i : Nat)
    (batch : List String) : (batchEmb oracle i batch).length = batch.length := by
  unfold batchEmb
  split
  · next es h => exact hok i 0 batch es h
  · split
    · next es h => exact hok i 1 batch es h
    · simp

/-- With sufficient fuel, the batching loop yields one embedding per
text. -/
theorem gebAux_length (oracle : EmbOracle) (bs : Nat) (hb : 0 < bs)
    (hok : oracleLenOk oracle) :
    ∀ (f : Nat) (i : Nat) (l : List String), l.length < f →
      (gebAux oracle bs f i l).length = l.length := by
  intro f
  induction f with
  | zero => intro i l h; omega
  | succ f ih =>
      intro i l h
      match l with
      | [] => rfl
      | x :: xs =>
          have hlt : ((x :: xs).drop bs).length < f := by
            simp only [List.length_drop, List.length_cons]
            simp only [List.length_cons] at h
            omega
          show (batchEmb oracle i ((x :: xs).take bs) ++
              gebAux oracle bs f (i + 1) ((x :: xs).drop bs)).length = (x :: xs).length
          rw [List.length_append, batchEmb_length oracle hok i ((x :: xs).take bs),
            ih (i + 1) _ hlt, List.length_take, List.length_drop]
          simp only [List.length_cons]
          omega

/-- `get_embeddings_batch` yields one embedding per input text. -/
theorem get_embeddings_batch_length (oracle : EmbOracle) (hok : oracleLenOk oracle)
    (texts : List String) :
    (get_embeddings_batch oracle texts 20).length = texts.length :=
  gebAux_length oracle 20 (by norm_num) hok (texts.length + 1) 0 texts
    (Nat.lt_succ_self _)

/-- Projecting the surviving embeddings out of the zipped triples is the
same as filtering the text/embedding pairs, as long as the metadata list
is as long as the text list. -/
theorem zipFilterMap : ∀ (as : List String) (bs : List (List ℚ)) (cs : List Metadata),
    cs.length = as.length →
    ((as.zip (bs.zip cs)).filter (fun p => ¬ p.2.1 = [])).map (fun p => p.2.1) =
      ((as.zip bs).filter (fun p => ¬ p.2 = [])).map (fun p => p.2) := by
  intro as
  induction as with
  | nil => intro bs cs _; simp
  | cons a as ih =>
      intro bs cs hlen
      match bs, cs with
      | [], _ => simp
      | _ :: _, [] => simp at hlen
      | b :: bs', c :: cs' =>
          have hlen' : cs'.length = as.length := by simpa using hlen
          have ih' := ih bs' cs' hlen'
          simp only [decide_not] at ih'
          by_cases hb : b = []
          · simp [hb, ih']
          · simp [hb, ih']

/-- Number of triples surviving the empty-embedding filter. -/
theorem addMetas_length (documents : List Document) :
    (addMetas documents).length = (addTexts documents).length := by
  simp [addMetas, addTexts]

/-- C8: documents whose embeddings come back empty (the failed-and-retried
batches) are excluded from the index: `add_documents` appends exactly the
embedding vectors that are non-empty, in order, and never stores an empty
vector. -/
theorem add_documents_drops_failed_embeddings (st : EmbState) (oracle : EmbOracle)
    (documents : List Document)
    (hdim : ∀ e ∈ get_embeddings_batch oracle (addTexts documents) 20,
      ¬ e = [] → e.length = st.embedding_dim)
    (hst : ∀ v ∈ st.index, ¬ v = []) :
    (add_documents st oracle documents).index =
      st.index ++
        (((addTexts documents).zip
            (get_embeddings_batch oracle (addTexts documents) 20)).filter
          (fun p => ¬ p.2 = [])).map (fun p => p.2) ∧
    ∀ v ∈ (add_documents st oracle documents).index, ¬ v = [] := by
  have hproj := zipFilterMap (addTexts documents)
    (get_embeddings_batch oracle (addTexts documents) 20) (addMetas documents)
    (addMetas_length documents)
  have hidx : (add_documents st oracle documents).index =
      st.index ++
        (((addTexts documents).zip
            (get_embeddings_batch oracle (addTexts documents) 20)).filter
          (fun p => ¬ p.2 = [])).map (fun p => p.2) := by
    by_cases hd : documents = []
    · subst hd
      rw [← hproj]
      simp [add_documents, addTexts, addMetas]
    · simp only [add_documents, hd, if_false]
      split
      · next hval =>
          rw [← hproj, hval]
          simp
      · next v0 vs hval =>
          have hv0 : v0 ∈ (addTexts documents).zip
              ((get_embeddings_batch oracle (addTexts documents) 20).zip
                (addMetas documents)) ∧ ¬ v0.2.1 = [] := by
            have hmem : v0 ∈ ((addTexts documents).zip
                ((get_embeddings_batch oracle (addTexts documents) 20).zip
                  (addMetas documents))).filter (fun p => ¬ p.2.1 = []) := by
              rw [hval]; exact List.mem_cons_self _ _
            have h2 := List.mem_filter.mp hmem
            exact ⟨h2.1, by simpa using h2.2⟩
          have hv0emb : v0.2.1 ∈ get_embeddings_batch oracle (addTexts documents) 20 :=
            (List.of_mem_zip (List.of_mem_zip hv0.1).2).1
          have hlen0 : v0.2.1.length = st.embedding_dim := hdim _ hv0emb hv0.2
          rw [if_neg (not_not_intro hlen0)]
          show st.index ++ _ = st.index ++ _
          rw [← hproj]
  refine ⟨hidx, ?_⟩
  rw [hidx]
  intro v hv
  rcases List.mem_append.mp hv with h1 | h1
  · exact hst v h1
  · obtain ⟨p, hp, rfl⟩ := List.mem_map.mp h1
    simpa using (List.mem_filter.mp hp).2

/-- Witness for C8: the spec's concrete scenario — three documents whose
second embedding fails both times (modelled by the collaborator returning
an empty vector for it) leave exactly two index entries, none empty. -/
theorem add_documents_drops_failed_embeddings_witness :
    (add_documents ⟨[], [], [], 1⟩
        (fun _ _ b => some (b.map (fun t => if t = "b" then ([] : List ℚ) else [1])))
        [⟨"", "r1", "", "", "a"⟩, ⟨"", "r2", "", "", "b"⟩, ⟨"", "r3", "", "", "c"⟩]).index.length
        = 2 ∧
    ∀ v ∈ (add_documents ⟨[], [], [], 1⟩
        (fun _ _ b => some (b.map (fun t => if t = "b" then ([] : List ℚ) else [1])))
        [⟨"", "r1", "", "", "a"⟩, ⟨"", "r2", "", "", "b"⟩, ⟨"", "r3", "", "", "c"⟩]).index,
      ¬ v = [] :=
  ⟨by decide,
   (add_documents_drops_failed_embeddings ⟨[], [], [], 1⟩
     (fun _ _ b => some (b.map (fun t => if t = "b" then ([] : List ℚ) else [1])))
     [⟨"", "r1", "", "", "a"⟩, ⟨"", "r2", "", "", "b"⟩, ⟨"", "r3", "", "", "c"⟩]
     (by decide) (by decide)).2⟩

/-- Truncating a non-empty string to a positive length keeps it
non-empty. -/
theorem strTake_ne_empty {s : String} (h : ¬ s = "") {n : Nat} (hn : 0 < n) :
    ¬ strTake n s = "" := by
  obtain ⟨d⟩ := s
  intro hEq
  have hd : d.take n = [] := congrArg String.data hEq
  rcases List.take_eq_nil_iff.mp hd with h1 | h1
  · omega
  · exact h (congrArg String.mk h1)

/-- C10: documents with an empty text field are silently skipped: the text
list sent for embedding contains no empty text, skipped documents never
reach the stored documents array, and the number of entries added is at
most the number of documents with a non-empty text field (itself at most
the input count); no error is raised — the function is total. -/
theorem add_documents_skips_empty_texts (st : EmbState) (oracle : EmbOracle)
    (documents : List Document)
    (hinv : ∀ d ∈ st.documents, ¬ d = "") :
    (∀ t ∈ addTexts documents, ¬ t = "") ∧
    (∀ d ∈ (add_documents st oracle documents).documents, ¬ d = "") ∧
    (add_documents st oracle documents).documents.length ≤
      st.documents.length + (documents.filter (fun d => ¬ d.combined = "")).length ∧
    (documents.filter (fun d => ¬ d.combined = "")).length ≤ documents.length := by
  have htexts : ∀ t ∈ addTexts documents, ¬ t = "" := by
    intro t ht
    obtain ⟨d, hd, rfl⟩ := List.mem_map.mp ht
    have h2 := (List.mem_filter.mp hd).2
    exact strTake_ne_empty (by simpa using h2) (by norm_num)
  refine ⟨htexts, ?_, ?_, List.length_filter_le _ _⟩
  · intro d hd
    simp only [add_documents] at hd
    revert hd
    split
    · intro hd; exact hinv d hd
    · split
      · intro hd; exact hinv d hd
      · intro hd
        rcases List.mem_append.mp hd with h1 | h1
        · revert h1
          split
          · intro h1; simp [createNewIndex] at h1
          · intro h1; exact hinv d h1
        · obtain ⟨p, hp, rfl⟩ := List.mem_map.mp h1
          have hzip := (List.mem_filter.mp hp).1
          exact htexts p.1 (List.of_mem_zip hzip).1
  · have hF : (((addTexts documents).zip
        ((get_embeddings_batch oracle (addTexts documents) 20).zip
          (addMetas documents))).filter (fun p => ¬ p.2.1 = [])).length ≤
        (documents.filter (fun d => ¬ d.combined = "")).length := by
      calc (((addTexts documents).zip
            ((get_embeddings_batch oracle (addTexts documents) 20).zip
              (addMetas documents))).filter (fun p => ¬ p.2.1 = [])).length
          ≤ ((addTexts documents).zip
              ((get_embeddings_batch oracle (addTexts documents) 20).zip
                (addMetas documents))).length := List.length_filter_le _ _
        _ ≤ (addTexts documents).length := by
            rw [List.length_zip]
            exact Nat.min_le_left _ _
        _ = (documents.filter (fun d => ¬ d.combined = "")).length := by
            simp [addTexts]
    simp only [add_documents]
    split
    · exact Nat.le_add_right _ _
    · split
      · exact Nat.le_add_right _ _
      · next v0 vs hval =>
          simp only [List.length_append, List.length_map]
          rw [hval] at hF
          rw [hval]
          split
          · simp only [createNewIndex]
            simp only [List.length_nil]
            omega
          · omega

/-- Witness for C10: one empty-text and one normal document. -/
theorem add_documents_skips_empty_texts_witness :
    (∀ t ∈ addTexts [⟨"", "r1", "", "", ""⟩, ⟨"", "r2", "", "", "x"⟩], ¬ t = "") ∧
    (∀ d ∈ (add_documents ⟨[], [], [], 1⟩ (fun _ _ b => some (b.map (fun _ => [1])))
        [⟨"", "r1", "", "", ""⟩, ⟨"", "r2", "", "", "x"⟩]).documents, ¬ d = "") ∧
    (add_documents ⟨[], [], [], 1⟩ (fun _ _ b => some (b.map (fun _ => [1])))
        [⟨"", "r1", "", "", ""⟩, ⟨"", "r2", "", "", "x"⟩]).documents.length ≤
      ([] : List String).length +
        ([(⟨"", "r1", "", "", ""⟩ : Document), ⟨"", "r2", "", "", "x"⟩].filter
          (fun d => ¬ d.combined = "")).length ∧
    ([(⟨"", "r1", "", "", ""⟩ : Document), ⟨"", "r2", "", "", "x"⟩].filter
        (fun d => ¬ d.combined = "")).length ≤
      ([(⟨"", "r1", "", "", ""⟩ : Document), ⟨"", "r2", "", "", "x"⟩]).length :=
  add_documents_skips_empty_texts ⟨[], [], [], 1⟩
    (fun _ _ b => some (b.map (fun _ => [1])))
    [⟨"", "r1", "", "", ""⟩, ⟨"", "r2", "", "", "x"⟩] (by simp)

/-! ## Claim C3 -/

/-- Space-join of a cons with non-empty tail. -/
theorem joinSp_cons_ne (x : String) (l : List String) (h : ¬ l = []) :
    joinSp (x :: l) = x ++ " " ++ joinSp l := by
  match l with
  | [] => exact absurd rfl h
  | y :: l' => rfl

/-- Length of a two-element space join. -/
theorem joinSp_pair_length (a b : String) :
    (joinSp [a, b]).length = a.length + 1 + b.length := by
  show (a ++ " " ++ b).length = a.length + 1 + b.length
  rw [String.length_append, String.length_append]
  rfl

/-- Length of a space join after appending one element to a non-empty
list. -/
theorem joinSp_append_one_ne : ∀ (l : List String), ¬ l = [] → ∀ (s : String),
    (joinSp (l ++ [s])).length = (joinSp l).length + 1 + s.length := by
  intro l
  induction l with
  | nil => intro h; exact absurd rfl h
  | cons x l' ih =>
      intro _ s
      by_cases hl : l' = []
      · subst hl
        exact joinSp_pair_length x s
      · have hne : ¬ l' ++ [s] = [] := by simp
        show (joinSp (x :: (l' ++ [s]))).length = (joinSp (x :: l')).length + 1 + s.length
        rw [joinSp_cons_ne x (l' ++ [s]) hne, joinSp_cons_ne x l' hl]
        rw [String.length_append, String.length_append, ih hl s,
          String.length_append, String.length_append]
        omega

/-- The last element of a non-empty list, as the Python slice `l[-1:]`. -/
theorem lastN1_shape (l : List String) (h : ¬ l = []) :
    ∃ b, lastN 1 l = [b] ∧ b ∈ l := by
  rcases List.eq_nil_or_concat l with rfl | ⟨l', b, rfl⟩
  · exact absurd rfl h
  · refine ⟨b, ?_, by simp⟩
    simp only [List.concat_eq_append]
    show (l' ++ [b]).drop ((l' ++ [b]).length - 1) = [b]
    have e : (l' ++ [b]).length - 1 = l'.length := by simp
    rw [e, List.drop_left]

/-- The last two elements of a list with at least two elements, as the
Python slice `l[-2:]`. -/
theorem lastN2_shape (l : List String) (h : 1 < l.length) :
    ∃ a b, lastN 2 l = [a, b] ∧ a ∈ l ∧ b ∈ l := by
  rcases List.eq_nil_or_concat l with rfl | ⟨l', b, rfl⟩
  · simp at h
  · rcases List.eq_nil_or_concat l' with rfl | ⟨l'', a, rfl⟩
    · simp at h
    · refine ⟨a, b, ?_, by simp, by simp⟩
      simp only [List.concat_eq_append]
      show ((l'' ++ [a]) ++ [b]).drop (((l'' ++ [a]) ++ [b]).length - 2) = [a, b]
      have e1 : (l'' ++ [a]) ++ [b] = l'' ++ [a, b] := by simp
      have e2 : ((l'' ++ [a]) ++ [b]).length - 2 = l''.length := by simp
      rw [e2, e1, List.drop_left]

/-- Unfolding of one loop iteration as close-then-append. -/
theorem ccStep_eq (cfg : SemanticChunker) (ov : Bool) (st : CCState) (seg : String) :
    ccStep cfg ov st seg =
      CCState.mk (ccClose cfg ov st seg).chunks ((ccClose cfg ov st seg).cur ++ [seg])
        ((ccClose cfg ov st seg).clen + seg.length + 1) := rfl

/-- Loop invariant for `_create_chunks_with_overlap` when every segment
has length at most `S`: every emitted chunk is bounded, the pending
segments are bounded, the `current_length` counter dominates the pending
join, and the pending join itself is bounded. -/
def ccInv (cfg : SemanticChunker) (S : Nat) (st : CCState) : Prop :=
  (∀ c ∈ st.chunks, c.length ≤ cfg.max_chunk_size + 3 * S + 2) ∧
  (∀ s ∈ st.cur, s.length ≤ S) ∧
  (joinSp st.cur).length ≤ st.clen ∧
  (joinSp st.cur).length ≤ max (cfg.max_chunk_size + 1) (3 * S + 2)

/-- One loop iteration preserves the invariant. -/
theorem ccStep_inv (cfg : SemanticChunker) (S : Nat) (ov : Bool) (st : CCState)
    (seg : String) (hseg : seg.length ≤ S) (h : ccInv cfg S st) :
    ccInv cfg S (ccStep cfg ov st seg) := by
  obtain ⟨ch, cu, cl⟩ := st
  obtain ⟨hchunks, hcur, hJc, hJm⟩ := h
  dsimp only at hchunks hcur hJc hJm
  have hMax : max (cfg.max_chunk_size + 1) (3 * S + 2) ≤
      cfg.max_chunk_size + 3 * S + 2 := max_le (by omega) (by omega)
  rw [ccStep_eq]
  unfold ccInv
  by_cases hcl : cfg.max_chunk_size < cl + seg.length ∧ ¬ cu = []
  · have hnew : (joinSp cu).length ≤ cfg.max_chunk_size + 3 * S + 2 :=
      le_trans hJm hMax
    have hchunks' : ∀ c ∈ ch ++ [joinSp cu],
        c.length ≤ cfg.max_chunk_size + 3 * S + 2 := by
      intro c hc
      rcases List.mem_append.mp hc with h1 | h1
      · exact hchunks c h1
      · simp only [List.mem_singleton] at h1
        subst h1; exact hnew
    by_cases hov : ov = true ∧ 1 < cu.length
    · obtain ⟨a, b, hlast, haMem, hbMem⟩ := lastN2_shape cu hov.2
      have ha : a.length ≤ S := hcur a haMem
      have hb : b.length ≤ S := hcur b hbMem
      by_cases hsz : (joinSp (lastN 2 cu)).length ≤ cfg.overlap_size * 2
      · have hclose : ccClose cfg ov (CCState.mk ch cu cl) seg =
            CCState.mk (ch ++ [joinSp cu]) [a, b] (joinSp [a, b]).length := by
          simp only [ccClose]
          rw [if_pos hcl, if_pos hov, hlast]
          rw [hlast] at hsz
          rw [if_pos hsz]
        rw [hclose]
        refine ⟨hchunks', ?_, ?_, ?_⟩
        · intro s hs
          have hs2 : s = a ∨ s = b ∨ s = seg := by simpa using hs
          rcases hs2 with rfl | rfl | rfl
          · exact ha
          · exact hb
          · exact hseg
        · show (joinSp ([a, b] ++ [seg])).length ≤ (joinSp [a, b]).length + seg.length + 1
          rw [joinSp_append_one_ne [a, b] (by simp) seg]
          omega
        · show (joinSp ([a, b] ++ [seg])).length ≤ _
          rw [joinSp_append_one_ne [a, b] (by simp) seg, joinSp_pair_length]
          have hbound : a.length + 1 + b.length + 1 + seg.length ≤ 3 * S + 2 := by omega
          exact le_trans hbound (le_max_right _ _)
      · obtain ⟨b1, hlast1, hb1Mem⟩ := lastN1_shape cu hcl.2
        have hb1 : b1.length ≤ S := hcur b1 hb1Mem
        have hclose : ccClose cfg ov (CCState.mk ch cu cl) seg =
            CCState.mk (ch ++ [joinSp cu]) [b1] (joinSp [b1]).length := by
          simp only [ccClose]
          rw [if_pos hcl, if_pos hov, hlast]
          rw [hlast] at hsz
          rw [if_neg hsz, hlast1]
        rw [hclose]
        refine ⟨hchunks', ?_, ?_, ?_⟩
        · intro s hs
          have hs2 : s = b1 ∨ s = seg := by simpa using hs
          rcases hs2 with rfl | rfl
          · exact hb1
          · exact hseg
        · show (joinSp ([b1] ++ [seg])).length ≤ (joinSp [b1]).length + seg.length + 1
          rw [joinSp_append_one_ne [b1] (by simp) seg]
          omega
        · show (joinSp ([b1] ++ [seg])).length ≤ _
          rw [joinSp_append_one_ne [b1] (by simp) seg]
          have hJ1 : (joinSp [b1]).length = b1.length := rfl
          have hbound : (joinSp [b1]).length + 1 + seg.length ≤ 3 * S + 2 := by
            rw [hJ1]; omega
          exact le_trans hbound (le_max_right _ _)
    · have hclose : ccClose cfg ov (CCState.mk ch cu cl) seg =
          CCState.mk (ch ++ [joinSp cu]) [] 0 := by
        simp only [ccClose]
        rw [if_pos hcl, if_neg hov]
      rw [hclose]
      refine ⟨hchunks', ?_, ?_, ?_⟩
      · intro s hs
        have hs2 : s = seg := by simpa using hs
        subst hs2; exact hseg
      · show (joinSp ([] ++ [seg])).length ≤ 0 + seg.length + 1
        show seg.length ≤ 0 + seg.length + 1
        omega
      · show (joinSp ([] ++ [seg])).length ≤ _
        show seg.length ≤ _
        exact le_trans (by omega : seg.length ≤ 3 * S + 2) (le_max_right _ _)
  · have hclose : ccClose cfg ov (CCState.mk ch cu cl) seg = CCState.mk ch cu cl := by
      simp only [ccClose]
      rw [if_neg hcl]
    rw [hclose]
    refine ⟨hchunks, ?_, ?_, ?_⟩
    · intro s hs
      rcases List.mem_append.mp hs with h1 | h1
      · exact hcur s h1
      · simp only [List.mem_singleton] at h1
        subst h1; exact hseg
    · by_cases hce : cu = []
      · subst hce
        show (joinSp ([] ++ [seg])).length ≤ cl + seg.length + 1
        show seg.length ≤ cl + seg.length + 1
        omega
      · show (joinSp (cu ++ [seg])).length ≤ cl + seg.length + 1
        rw [joinSp_append_one_ne cu hce seg]
        omega
    · by_cases hce : cu = []
      · subst hce
        show (joinSp ([] ++ [seg])).length ≤ _
        show seg.length ≤ _
        exact le_trans (by omega : seg.length ≤ 3 * S + 2) (le_max_right _ _)
      · have hguard : cl + seg.length ≤ cfg.max_chunk_size := by
          rcases not_and_or.mp hcl with h1 | h1
          · omega
          · exact absurd hce (by simpa using h1)
        show (joinSp (cu ++ [seg])).length ≤ _
        rw [joinSp_append_one_ne cu hce seg]
        have hb2 : (joinSp cu).length + 1 + seg.length ≤ cfg.max_chunk_size + 1 := by
          omega
        exact le_trans hb2 (le_max_left _ _)

/-- The whole loop preserves the invariant. -/
theorem ccFold_inv (cfg : SemanticChunker) (S : Nat) (ov : Bool) :
    ∀ (segs : List String) (st : CCState), (∀ s ∈ segs, s.length ≤ S) →
      ccInv cfg S st → ccInv cfg S (segs.foldl (ccStep cfg ov) st) := by
  intro segs
  induction segs with
  | nil => intro st _ h; exact h
  | cons x segs ih =>
      intro st hS h
      exact ih (ccStep cfg ov st x) (fun s hs => hS s (by simp [hs]))
        (ccStep_inv cfg S ov st x (hS x (by simp)) h)

/-- The final flush emits only chunks within the overall bound. -/
theorem ccFinish_bound (cfg : SemanticChunker) (S : Nat) (st : CCState)
    (h : ccInv cfg S st) :
    ∀ c ∈ ccFinish cfg st,
      c.length ≤ cfg.max_chunk_size + 3 * S + cfg.min_chunk_size + 2 := by
  obtain ⟨ch, cu, cl⟩ := st
  obtain ⟨hchunks, _, _, hJm⟩ := h
  dsimp only at hchunks hJm
  have hMax : max (cfg.max_chunk_size + 1) (3 * S + 2) ≤
      cfg.max_chunk_size + 3 * S + 2 := max_le (by omega) (by omega)
  have hJ : (joinSp cu).length ≤ cfg.max_chunk_size + 3 * S + 2 := le_trans hJm hMax
  intro c hc
  cases cu with
  | nil =>
      have hfin : ccFinish cfg (CCState.mk ch [] cl) = ch := rfl
      rw [hfin] at hc
      have := hchunks c hc
      omega
  | cons x xs =>
      by_cases hge : cfg.min_chunk_size ≤ (joinSp (x :: xs)).length
      · have hfin : ccFinish cfg (CCState.mk ch (x :: xs) cl) =
            ch ++ [joinSp (x :: xs)] := by
          simp only [ccFinish]
          rw [if_pos hge]
        rw [hfin] at hc
        rcases List.mem_append.mp hc with h1 | h1
        · have := hchunks c h1
          omega
        · simp only [List.mem_singleton] at h1
          subst h1
          omega
      · cases ch with
        | nil =>
            have hfin : ccFinish cfg (CCState.mk [] (x :: xs) cl) = [] := by
              simp only [ccFinish]
              rw [if_neg hge]
            rw [hfin] at hc
            simp at hc
        | cons c0 cs0 =>
            have hfin : ccFinish cfg (CCState.mk (c0 :: cs0) (x :: xs) cl) =
                (c0 :: cs0).dropLast ++
                  [(c0 :: cs0).getLast (List.cons_ne_nil c0 cs0) ++ " " ++
                    joinSp (x :: xs)] := by
              simp only [ccFinish]
              rw [if_neg hge]
            rw [hfin] at hc
            rcases List.mem_append.mp hc with h1 | h1
            · exact le_trans (hchunks c (List.dropLast_subset _ h1)) (by omega)
            · simp only [List.mem_singleton] at h1
              subst h1
              have h2 := hchunks _ (List.getLast_mem (List.cons_ne_nil c0 cs0))
              rw [String.length_append, String.length_append]
              have h4 : (" " : String).length = 1 := rfl
              omega


/-- Every chunk produced by `_create_chunks_with_overlap` from segments of
length at most `S` has length at most
`max_chunk_size + 3*S + min_chunk_size + 2`. -/
theorem createChunks_bound (cfg : SemanticChunker) (segs : List String) (ov : Bool)
    (S : Nat) (hS : ∀ s ∈ segs, s.length ≤ S) :
    ∀ c ∈ createChunksWithOverlap cfg segs ov,
      c.length ≤ cfg.max_chunk_size + 3 * S + cfg.min_chunk_size + 2 := by
  unfold createChunksWithOverlap
  split
  · intro c hc; simp at hc
  · have hinit : ccInv cfg S (CCState.mk [] [] 0) := by
      refine ⟨by simp, by simp, by simp [joinSp], ?_⟩
      show (joinSp []).length ≤ _
      show ("" : String).length ≤ _
      simp
    exact ccFinish_bound cfg S _ (ccFold_inv cfg S ov segs _ hS hinit)

/-- C3 (amended): for a document whose normalized text exceeds
`max_chunk_size`, every emitted chunk's text length is at most
`max_chunk_size + 3*S + min_chunk_size + 2`, where `S` bounds the segment
lengths.  (The claimed `max_chunk_size` bound itself fails — an
unsplittable oversized segment is emitted whole, the close-triggering
segment is appended to the overlap seed without a size check, and a short
trailing chunk is merged backward — and a chunk closed while holding a
single segment reseeds with no overlap at all.) -/
theorem chunk_document_length_bound (cfg : SemanticChunker) (doc : Document) (S : Nat)
    (hlong : cfg.max_chunk_size < (normalizeDoc doc).length)
    (hS : ∀ s ∈ segmentsOf cfg doc, s.length ≤ S) :
    ∀ c ∈ chunk_document cfg doc,
      c.combined.length ≤ cfg.max_chunk_size + 3 * S + cfg.min_chunk_size + 2 := by
  intro c hc
  have hnot : ¬ (normalizeDoc doc).length ≤ cfg.max_chunk_size := by omega
  simp only [chunk_document, hnot, if_false] at hc
  obtain ⟨_, _, _, hmem⟩ := mkChunks_mem 0 _ c hc
  exact createChunks_bound cfg _ true S hS c.combined hmem

/-- Witness for C3 (amended): the bound evaluated on a concrete split
document. -/
theorem chunk_document_length_bound_witness :
    ((⟨10, 0, 10, 3⟩ : SemanticChunker).max_chunk_size <
        (normalizeDoc ⟨"", "r", "", "abcdefghijklmnop", ""⟩).length) ∧
    (∀ s ∈ segmentsOf ⟨10, 0, 10, 3⟩ ⟨"", "r", "", "abcdefghijklmnop", ""⟩,
        s.length ≤ 23) ∧
    ∀ c ∈ chunk_document ⟨10, 0, 10, 3⟩ ⟨"", "r", "", "abcdefghijklmnop", ""⟩,
      c.combined.length ≤ 10 + 3 * 23 + 0 + 2 :=
  ⟨by decide, by decide,
   chunk_document_length_bound ⟨10, 0, 10, 3⟩ ⟨"", "r", "", "abcdefghijklmnop", ""⟩ 23
     (by decide) (by decide)⟩

/-- Counterexample for C3 as stated, refuting both conjuncts at one
input: a document longer than `max_chunk_size` splits into exactly two
chunks of which the first is longer than `max_chunk_size` (its single
unsplittable segment is emitted whole), and the second — a chunk other
than the first — has no character in common with its predecessor, so no
non-empty textual overlap of any length (in particular none of length at
most `overlap_size`) is shared: a chunk closed while holding a single
segment reseeds the next chunk with nothing. -/
theorem chunk_oversize_no_overlap_cex :
    ((⟨10, 0, 10, 3⟩ : SemanticChunker).max_chunk_size <
        (normalizeDoc ⟨"", "r", "", "aaaaaaaaaa. bbbbbbbbbb", ""⟩).length) ∧
    ((chunk_document ⟨10, 0, 10, 3⟩ ⟨"", "r", "", "aaaaaaaaaa. bbbbbbbbbb", ""⟩).map
        (fun c => c.combined)) = ["[ - r] aaaaaaaaaa.", "bbbbbbbbbb"] ∧
    ((⟨10, 0, 10, 3⟩ : SemanticChunker).max_chunk_size <
        ("[ - r] aaaaaaaaaa." : String).length) ∧
    ∀ c ∈ ("bbbbbbbbbb" : String).data, ¬ c ∈ ("[ - r] aaaaaaaaaa." : String).data := by
  refine ⟨by decide, by decide, by decide, by decide⟩

end Guezi
